import Mathlib

set_option linter.unusedVariables false

/-!
Verification of the pyschema Avro extension
(`src/pyschema_extensions/avro.py`) and the luigi batch adapter
(`src/pyschema/contrib/luigi.py`).

The Python sources are shallowly embedded: JSON-compatible Python values
(and record instances) become the inductive type `Value`; pyschema field
descriptors become the mutually inductive `Field` / `FieldKind`; record
classes become `RecordDef` looked up by key in an `Env`, which lets a
schema reference itself directly or through a cycle of SubRecords, as in
Python where `SubRecord._schema` is a class reference.
-/

namespace PySchemaAvro

/-- A JSON-compatible Python value, extended with record instances.
`vrec key fields` models a pyschema record instance whose class is the
record definition registered under `key` and whose attributes hold the
given field values.  `vfloat` carries an opaque pair (significand,
exponent): no arithmetic is ever performed on float payloads, they are
moved around verbatim by the codec. -/
inductive Value where
  | vnull : Value
  | vbool : Bool → Value
  | vint : Int → Value
  | vfloat : Int → Int → Value
  | vstr : String → Value
  | vlist : List Value → Value
  | vdict : List (String × Value) → Value
  | vrec : String → List (String × Value) → Value

/-- A field's default: either the `core.NO_DEFAULT` sentinel or a declared
default value (`val Value.vnull` models an explicit `None` default). -/
inductive Default where
  | noDefault : Default
  | val : Value → Default

mutual
/-- A pyschema field descriptor: its kind, `nullable` flag and `default`,
mirroring the attributes read by `pyschema_extensions/avro.py`. -/
inductive Field where
  | mk : FieldKind → Bool → Default → Field

/-- The closed set of field kinds of `pyschema.types` used by the Avro
extension.  `list` and `map` carry full sub-field descriptors (as in
Python, where `List(Text())` holds a `Field` instance); `subRecord`
carries the key of the referenced record class in the environment. -/
inductive FieldKind where
  | boolean : FieldKind
  | integer : Nat → FieldKind
  | float : Nat → FieldKind
  | bytes : FieldKind
  | text : FieldKind
  | enum : List String → FieldKind
  | list : Field → FieldKind
  | map : Field → Field → FieldKind
  | subRecord : String → FieldKind
end

/-- The kind of a field. -/
def Field.kind : Field → FieldKind
  | .mk k _ _ => k

/-- The `nullable` flag of a field. -/
def Field.nullable : Field → Bool
  | .mk _ n _ => n

/-- The `default` of a field. -/
def Field.default : Field → Default
  | .mk _ _ d => d

/-- A pyschema record class as seen by the Avro extension: its Python
class `__name__`, its `_schema_name`, its optional `_avro_namespace_`
and its `_fields` mapping (in declaration order). -/
structure RecordDef where
  pyName : String
  schemaName : String
  ns : Option String
  fields : List (String × Field)

/-- The registry of record classes: `subRecord` keys resolve here.  This
stands for Python's direct class references and allows cyclic schemas. -/
abbrev Env := List (String × RecordDef)

/-- Resolve a record key in the environment; the fallback empty record is
unreachable for well-formed environments (in Python the class reference
always exists). -/
def lookupRecord (env : Env) (key : String) : RecordDef :=
  (List.lookup key env).getD ⟨"", "", none, []⟩

/-- Fully qualified record name: `_avro_namespace_ + "." + _schema_name`
when the namespace attribute is present, else `_schema_name`
(`get_schema_dict` lines 243-248, `SubRecordMixin.avro_type_name`). -/
def qualifiedName (r : RecordDef) : String :=
  match r.ns with
  | some n => n ++ "." ++ r.schemaName
  | none => r.schemaName

/-- `avro_type_name` for every field kind: the class attributes set at
module level for Boolean/Bytes/Text/Enum/List/Map, the size-dispatching
properties of `IntegerMixin`/`FloatMixin`, and the qualified record name
of `SubRecordMixin.avro_type_name`. -/
def avroTypeName (env : Env) (f : Field) : String :=
  match f.kind with
  | .boolean => "boolean"
  | .integer size => if size ≤ 4 then "int" else "long"
  | .float size => if size ≤ 4 then "float" else "double"
  | .bytes => "bytes"
  | .text => "string"
  | .enum _ => "ENUM"
  | .list _ => "array"
  | .map _ _ => "map"
  | .subRecord key => qualifiedName (lookupRecord env key)

/-- `getattr(record, name)` on an instance's attribute list; a missing
attribute (unreachable for well-formed instances) reads as `None`. -/
def getattrValue (fl : List (String × Value)) (nm : String) : Value :=
  (List.lookup nm fl).getD .vnull

/-- Association-list lookup yields a strictly smaller value (termination
measure for the structural recursion over instance attributes). -/
theorem sizeOf_lookup_lt {fl : List (String × Value)} {nm : String} {v : Value}
    (h : List.lookup nm fl = some v) : sizeOf v < sizeOf fl := by
  induction fl with
  | nil => simp [List.lookup] at h
  | cons p rest ih =>
    obtain ⟨k, w⟩ := p
    rw [List.lookup] at h
    by_cases hk : nm = k
    · simp [hk] at h
      subst h
      simp
      omega
    · have : (nm == k) = false := beq_false_of_ne hk
      rw [this] at h
      have := ih h
      simp
      omega

theorem one_le_sizeOf_string (s : String) : 1 ≤ sizeOf s := by
  cases s
  simp

/-- Attribute access never exceeds the attribute list in size. -/
theorem sizeOf_getattr_le (fl : List (String × Value)) (nm : String) :
    sizeOf (getattrValue fl nm) ≤ sizeOf fl := by
  rw [getattrValue]
  cases h : List.lookup nm fl with
  | none =>
    cases fl with
    | nil => simp
    | cons p rest => simp; omega
  | some v =>
    have := sizeOf_lookup_lt h
    simp
    omega

/-- Modelled from the spec: the scalar encode of the base field kinds
(`pyschema.types.Field.dump`, not under `src/`).  The spec treats it as
an opaque "already-existing scalar encode" and asserts (round-trip
property, §8) that encode and decode are mutually inverse; it is
embedded as the identity on JSON payloads. -/
def scalarDump (v : Value) : Value := v

/-- Modelled from the spec: the scalar decode of the base field kinds
(`pyschema.types.Field.load`, not under `src/`), inverse of
`scalarDump`. -/
def scalarLoad (v : Value) : Value := v

/-- Modelled from the spec: the Text key encode used by
`MapMixin.avro_dump` (`self.key_type.dump(k)`); keys are always text. -/
def textKeyDump (s : String) : String := s

/-- Modelled from the spec: the Text key decode used by
`MapMixin.avro_load` (`self.key_type.load(k)`). -/
def textKeyLoad (s : String) : String := s

mutual
/-- `avro_dump` dispatched on the field kind: `FieldMixin.avro_dump`
(scalar kinds), `ListMixin.avro_dump`, `MapMixin.avro_dump` and
`SubRecordMixin.avro_dump` of `pyschema_extensions/avro.py`.  Every
branch returns `None` for `None` input first; nullable fields wrap the
encoded value as `{avro_type_name: encoded}`.  Inputs outside the
field's domain (impossible in well-typed Python use) map to `vnull`. -/
def avroDump (env : Env) (f : Field) (o : Value) : Value :=
  match f.kind with
  | .list elem =>
    match o with
    | .vnull => .vnull
    | .vlist xs =>
      let l := Value.vlist (dumpElems env elem xs)
      if f.nullable then .vdict [(avroTypeName env f, l)] else l
    | _ => .vnull
  | .map _kt vt =>
    match o with
    | .vnull => .vnull
    | .vdict kvs =>
      let m := Value.vdict (dumpEntries env vt kvs)
      if f.nullable then .vdict [(avroTypeName env f, m)] else m
    | _ => .vnull
  | .subRecord _key =>
    match o with
    | .vnull => .vnull
    | .vrec k fl =>
      have hk : 1 ≤ sizeOf k := one_le_sizeOf_string k
      let inner := Value.vdict (toJsonCompatFields env (lookupRecord env k).fields fl)
      if f.nullable then .vdict [(avroTypeName env f, inner)] else inner
    | _ => .vnull
  | _ =>
    match o with
    | .vnull => .vnull
    | w =>
      if f.nullable then .vdict [(avroTypeName env f, scalarDump w)] else scalarDump w
termination_by (sizeOf o, 0)

/-- The element loop of `ListMixin.avro_dump`. -/
def dumpElems (env : Env) (elem : Field) (xs : List Value) : List Value :=
  match xs with
  | [] => []
  | x :: rest => avroDump env elem x :: dumpElems env elem rest
termination_by (sizeOf xs, 0)

/-- The entry loop of `MapMixin.avro_dump`: keys through the Text key
encoder, values recursively dumped. -/
def dumpEntries (env : Env) (vt : Field) (kvs : List (String × Value)) :
    List (String × Value) :=
  match kvs with
  | [] => []
  | (k, v) :: rest => (textKeyDump k, avroDump env vt v) :: dumpEntries env vt rest
termination_by (sizeOf kvs, 0)

/-- The field loop of `to_json_compatible`: for every field of the
instance's class, dump the corresponding attribute.  A missing
attribute (unreachable for well-formed instances) dumps as `vnull`. -/
def toJsonCompatFields (env : Env) (flds : List (String × Field))
    (fl : List (String × Value)) : List (String × Value) :=
  match flds with
  | [] => []
  | (nm, ft) :: rest =>
    have hle : sizeOf (getattrValue fl nm) ≤ sizeOf fl := sizeOf_getattr_le fl nm
    (nm, avroDump env ft (getattrValue fl nm)) :: toJsonCompatFields env rest fl
termination_by (1 + sizeOf fl, sizeOf flds)
end

/-- `to_json_compatible` (avro.py lines 283-288) on a record instance
`vrec k fl`: iterates the class's `_fields` and dumps each attribute. -/
def toJsonCompat (env : Env) (k : String) (fl : List (String × Value)) : Value :=
  .vdict (toJsonCompatFields env (lookupRecord env k).fields fl)

/-- Failures of the value-load path: `core.ParseError` with its message
(the structured parse-error type of the spec, modelled from the spec
since `pyschema/core.py` is not under `src/`), and `typeError` standing
for any other uncaught Python exception (`KeyError`/`TypeError` from
indexing a malformed union wrapper or iterating a non-container). -/
inductive LoadErr where
  | parseError : String → LoadErr
  | typeError : LoadErr

/-- The default a constructed record falls back to for a field the
kwargs do not mention; `NO_DEFAULT` fields fall back to `None`. -/
def defaultValue (f : Field) : Value :=
  match f.default with
  | .val v => v
  | .noDefault => .vnull

/-- Modelled from the spec: record construction `schema(**kwargs)`
(`pyschema/core.py`, not under `src/`).  Per the spec (§4.3), fields
absent from the kwargs are left at their declared default; every field
of the class gets an attribute. -/
def mkRecord (key : String) (rdef : RecordDef) (kwargs : List (String × Value)) : Value :=
  .vrec key (rdef.fields.map (fun p => (p.1, (List.lookup p.1 kwargs).getD (defaultValue p.2))))

/-- The unknown-field message of `from_json_compatible` (avro.py line
298), naming the schema class and the offending key. -/
def unexpectedFieldMsg (rdef : RecordDef) (key : String) : String :=
  "Unexpected field encountered in line for record " ++ rdef.pyName ++ ": " ++ key

mutual
/-- `avro_load` dispatched on the field kind: `FieldMixin.avro_load`,
`ListMixin.avro_load`, `MapMixin.avro_load` and
`SubRecordMixin.avro_load`.  `None` loads as `None`; nullable fields
unwrap the `{avro_type_name: value}` union wrapper first (a malformed
wrapper is a `typeError`, as indexing raises in Python). -/
def avroLoad (env : Env) (f : Field) (o : Value) : Except LoadErr Value :=
  match f.kind with
  | .list elem =>
    match o with
    | .vnull => .ok .vnull
    | .vdict kvs =>
      if f.nullable then
        match h : List.lookup (avroTypeName env f) kvs with
        | some (.vlist xs) =>
          have hlt : sizeOf xs < sizeOf kvs := by
            have hx := sizeOf_lookup_lt h
            simp at hx
            omega
          (loadElems env elem xs).map Value.vlist
        | some _ => .error .typeError
        | none => .error .typeError
      else .error .typeError
    | .vlist xs =>
      if f.nullable then .error .typeError
      else (loadElems env elem xs).map Value.vlist
    | _ => .error .typeError
  | .map _kt vt =>
    match o with
    | .vnull => .ok .vnull
    | .vdict kvs =>
      if f.nullable then
        match h : List.lookup (avroTypeName env f) kvs with
        | some (.vdict entries) =>
          have hlt : sizeOf entries < sizeOf kvs := by
            have hx := sizeOf_lookup_lt h
            simp at hx
            omega
          (loadEntries env vt entries).map Value.vdict
        | some _ => .error .typeError
        | none => .error .typeError
      else (loadEntries env vt kvs).map Value.vdict
    | _ => .error .typeError
  | .subRecord key =>
    match o with
    | .vnull => .ok .vnull
    | .vdict kvs =>
      if f.nullable then
        match h : List.lookup (avroTypeName env f) kvs with
        | some (.vdict dct) =>
          have hlt : sizeOf dct < sizeOf kvs := by
            have hx := sizeOf_lookup_lt h
            simp at hx
            omega
          (fromJsonFields env (lookupRecord env key) dct).map
            (mkRecord key (lookupRecord env key))
        | some _ => .error .typeError
        | none => .error .typeError
      else
        (fromJsonFields env (lookupRecord env key) kvs).map
          (mkRecord key (lookupRecord env key))
    | _ => .error .typeError
  | _ =>
    match o with
    | .vnull => .ok .vnull
    | .vdict kvs =>
      if f.nullable then
        match List.lookup (avroTypeName env f) kvs with
        | some w => .ok (scalarLoad w)
        | none => .error .typeError
      else .ok (scalarLoad (.vdict kvs))
    | w =>
      if f.nullable then .error .typeError
      else .ok (scalarLoad w)
termination_by (sizeOf o, 0)

/-- The element loop of `ListMixin.avro_load`. -/
def loadElems (env : Env) (elem : Field) (xs : List Value) :
    Except LoadErr (List Value) :=
  match xs with
  | [] => .ok []
  | x :: rest => do
    let w ← avroLoad env elem x
    let ws ← loadElems env elem rest
    .ok (w :: ws)
termination_by (sizeOf xs, 0)

/-- The entry loop of `MapMixin.avro_load`: keys through the Text key
decoder, values recursively loaded. -/
def loadEntries (env : Env) (vt : Field) (kvs : List (String × Value)) :
    Except LoadErr (List (String × Value)) :=
  match kvs with
  | [] => .ok []
  | (k, v) :: rest => do
    let w ← avroLoad env vt v
    let ws ← loadEntries env vt rest
    .ok ((textKeyLoad k, w) :: ws)
termination_by (sizeOf kvs, 0)

/-- The key loop of `from_json_compatible` (avro.py lines 295-299):
every input key is looked up among the schema's fields; an unknown key
raises `core.ParseError` naming the schema class and the key, a known
key has its value loaded into the kwargs. -/
def fromJsonFields (env : Env) (rdef : RecordDef) (dct : List (String × Value)) :
    Except LoadErr (List (String × Value)) :=
  match dct with
  | [] => .ok []
  | (k, v) :: rest =>
    match List.lookup k rdef.fields with
    | none => .error (.parseError (unexpectedFieldMsg rdef k))
    | some ft => do
      let w ← avroLoad env ft v
      let kwargs ← fromJsonFields env rdef rest
      .ok ((k, w) :: kwargs)
termination_by (sizeOf dct, 1)
end

/-- `from_json_compatible(schema, dct)` (avro.py lines 291-301): builds
kwargs from the input mapping, failing on unknown keys, then constructs
an instance of the schema class. -/
def fromJsonCompat (env : Env) (key : String) (dct : List (String × Value)) :
    Except LoadErr Value :=
  (fromJsonFields env (lookupRecord env key) dct).map
    (mkRecord key (lookupRecord env key))

mutual
/-- Valid values of a field kind, as in the spec's round-trip property:
`None` is valid for every field; scalar payloads match their kind;
list elements and map values are recursively valid; a sub-record value
is an instance of the referenced class, with exactly the class's
(distinct) field names in declaration order and recursively valid
attribute values. -/
def validB (env : Env) (f : Field) (v : Value) : Bool :=
  match v with
  | .vnull => true
  | w =>
    match f.kind with
    | .boolean => match w with | .vbool _ => true | _ => false
    | .integer _ => match w with | .vint _ => true | _ => false
    | .float _ => match w with | .vfloat _ _ => true | _ => false
    | .bytes => match w with | .vstr _ => true | _ => false
    | .text => match w with | .vstr _ => true | _ => false
    | .enum _ => match w with | .vstr _ => true | _ => false
    | .list elem =>
      match w with
      | .vlist xs => validElems env elem xs
      | _ => false
    | .map _kt vt =>
      match w with
      | .vdict kvs => validEntries env vt kvs
      | _ => false
    | .subRecord key =>
      match w with
      | .vrec k fl =>
        k == key &&
        match List.lookup key env with
        | some rdef =>
          decide (rdef.fields.map Prod.fst).Nodup && validFields env rdef.fields fl
        | none => false
      | _ => false
termination_by (sizeOf v, 0)

/-- All list elements valid. -/
def validElems (env : Env) (elem : Field) (xs : List Value) : Bool :=
  match xs with
  | [] => true
  | x :: rest => validB env elem x && validElems env elem rest
termination_by (sizeOf xs, 0)

/-- All map values valid. -/
def validEntries (env : Env) (vt : Field) (kvs : List (String × Value)) : Bool :=
  match kvs with
  | [] => true
  | (_, v) :: rest => validB env vt v && validEntries env vt rest
termination_by (sizeOf kvs, 0)

/-- Instance attributes match the class's fields: same names in the
same order, each value valid for its field. -/
def validFields (env : Env) (flds : List (String × Field))
    (fl : List (String × Value)) : Bool :=
  match flds, fl with
  | [], [] => true
  | (n1, ft) :: fs, (n2, v) :: vs =>
    n1 == n2 && validB env ft v && validFields env fs vs
  | _, _ => false
termination_by (sizeOf fl, 1)
end

/-! ### Round-trip: helper lemmas -/

/-- Dumping `None` yields `None` for every field kind (the `if o is
None: return None` guard of every `avro_dump`). -/
theorem avroDump_vnull (env : Env) (f : Field) : avroDump env f .vnull = .vnull := by
  obtain ⟨k, nb, d⟩ := f
  cases k <;> simp [avroDump, Field.kind]

/-- Loading `None` yields `None` for every field kind. -/
theorem avroLoad_vnull (env : Env) (f : Field) : avroLoad env f .vnull = .ok .vnull := by
  obtain ⟨k, nb, d⟩ := f
  cases k <;> simp [avroLoad, Field.kind]

theorem validElems_mem {env : Env} {elem : Field} {xs : List Value}
    (h : validElems env elem xs = true) : ∀ x ∈ xs, validB env elem x = true := by
  induction xs with
  | nil => simp
  | cons x rest ih =>
    rw [validElems] at h
    simp only [Bool.and_eq_true] at h
    intro y hy
    rcases List.mem_cons.mp hy with hy | hy
    · exact hy ▸ h.1
    · exact ih h.2 y hy

theorem validEntries_mem {env : Env} {vt : Field} {kvs : List (String × Value)}
    (h : validEntries env vt kvs = true) : ∀ p ∈ kvs, validB env vt p.2 = true := by
  induction kvs with
  | nil => simp
  | cons p rest ih =>
    obtain ⟨k, v⟩ := p
    rw [validEntries] at h
    simp only [Bool.and_eq_true] at h
    intro q hq
    rcases List.mem_cons.mp hq with hq | hq
    · exact hq ▸ h.1
    · exact ih h.2 q hq

/-- `validFields` unfolded into a pointwise pairing of class fields and
instance attributes. -/
theorem validFields_forall2 {env : Env} {flds : List (String × Field)}
    {fl : List (String × Value)} (h : validFields env flds fl = true) :
    List.Forall₂ (fun (p : String × Field) (q : String × Value) =>
      p.1 = q.1 ∧ validB env p.2 q.2 = true) flds fl := by
  induction flds generalizing fl with
  | nil =>
    cases fl with
    | nil => exact List.Forall₂.nil
    | cons q qs => simp [validFields] at h
  | cons p ps ih =>
    obtain ⟨n1, ft⟩ := p
    cases fl with
    | nil => simp [validFields] at h
    | cons q qs =>
      obtain ⟨n2, v⟩ := q
      rw [validFields] at h
      simp only [Bool.and_eq_true, beq_iff_eq] at h
      exact List.Forall₂.cons ⟨h.1.1, h.1.2⟩ (ih h.2)

/-- Pointwise element round-trips lift to the list loops of
`ListMixin.avro_dump` / `avro_load`. -/
theorem loadElems_dumpElems {env : Env} {elem : Field} {xs : List Value}
    (H : ∀ x ∈ xs, avroLoad env elem (avroDump env elem x) = .ok x) :
    loadElems env elem (dumpElems env elem xs) = .ok xs := by
  induction xs with
  | nil => simp [dumpElems, loadElems]
  | cons x rest ih =>
    rw [dumpElems, loadElems]
    rw [H x (List.mem_cons_self x rest), ih (fun y hy => H y (List.mem_cons_of_mem x hy))]
    rfl

/-- Pointwise value round-trips lift to the entry loops of
`MapMixin.avro_dump` / `avro_load`; Text keys pass through the identity
key codec. -/
theorem loadEntries_dumpEntries {env : Env} {vt : Field} {kvs : List (String × Value)}
    (H : ∀ p ∈ kvs, avroLoad env vt (avroDump env vt p.2) = .ok p.2) :
    loadEntries env vt (dumpEntries env vt kvs) = .ok kvs := by
  induction kvs with
  | nil => simp [dumpEntries, loadEntries]
  | cons p rest ih =>
    obtain ⟨k, v⟩ := p
    rw [dumpEntries, loadEntries]
    rw [H ⟨k, v⟩ (List.mem_cons_self _ rest), ih (fun q hq => H q (List.mem_cons_of_mem _ hq))]
    rfl

/-- Attribute dumping ignores a leading instance attribute none of the
remaining fields name (the lookup skips it). -/
theorem toJsonCompatFields_skip {env : Env} {fs : List (String × Field)}
    {n : String} {v : Value} {vs : List (String × Value)}
    (h : ∀ p ∈ fs, p.1 ≠ n) :
    toJsonCompatFields env fs ((n, v) :: vs) = toJsonCompatFields env fs vs := by
  induction fs with
  | nil => rw [toJsonCompatFields, toJsonCompatFields]
  | cons p rest ih =>
    obtain ⟨nm, ft⟩ := p
    have hne : (nm == n) = false :=
      beq_false_of_ne (h ⟨nm, ft⟩ (List.mem_cons_self _ _))
    rw [toJsonCompatFields, toJsonCompatFields]
    rw [show getattrValue ((n, v) :: vs) nm = getattrValue vs nm from by
      simp [getattrValue, List.lookup, hne]]
    rw [ih (fun q hq => h q (List.mem_cons_of_mem _ hq))]

/-- On a well-formed instance (attribute names equal to the class's
field names in order, names distinct), `to_json_compatible`'s field loop
produces exactly one entry per field, dumping the paired attribute. -/
theorem toJsonCompatFields_aligned {env : Env} {flds : List (String × Field)}
    {fl : List (String × Value)}
    (h2 : List.Forall₂ (fun (p : String × Field) (q : String × Value) => p.1 = q.1) flds fl)
    (hnd : (flds.map Prod.fst).Nodup) :
    toJsonCompatFields env flds fl =
      List.zipWith (fun (p : String × Field) (q : String × Value) =>
        (p.1, avroDump env p.2 q.2)) flds fl := by
  induction h2 with
  | nil => rw [toJsonCompatFields]; rfl
  | @cons p q ps qs hpq hrest ih =>
    obtain ⟨n1, ft⟩ := p
    obtain ⟨n2, v⟩ := q
    simp only at hpq
    subst hpq
    simp only [List.map_cons, List.nodup_cons] at hnd
    rw [toJsonCompatFields]
    rw [show getattrValue ((n1, v) :: qs) n1 = v from by simp [getattrValue, List.lookup]]
    have hskip : ∀ r ∈ ps, r.1 ≠ n1 := by
      intro r hr hcon
      exact hnd.1 (hcon ▸ List.mem_map_of_mem Prod.fst hr)
    rw [toJsonCompatFields_skip hskip, ih hnd.2]
    rfl

/-- Keys of a distinct-keyed association list look themselves up. -/
theorem lookup_self_of_nodup {α : Type} {l : List (String × α)}
    (hnd : (l.map Prod.fst).Nodup) :
    ∀ p ∈ l, List.lookup p.1 l = some p.2 := by
  induction l with
  | nil => simp
  | cons q rest ih =>
    obtain ⟨k, a⟩ := q
    simp only [List.map_cons, List.nodup_cons] at hnd
    intro p hp
    rcases List.mem_cons.mp hp with hp | hp
    · subst hp
      simp [List.lookup]
    · obtain ⟨pk, pa⟩ := p
      have hne : (pk == k) = false := by
        apply beq_false_of_ne
        intro hcon
        exact hnd.1 (hcon ▸ List.mem_map_of_mem Prod.fst hp)
      simp only [List.lookup, hne]
      exact ih hnd.2 ⟨pk, pa⟩ hp

/-- Loading the dumped field list back: every key is found among the
schema's fields and every value round-trips, so the kwargs equal the
original attribute list. -/
theorem fromJsonFields_dumped {env : Env} {rdef : RecordDef}
    {flds : List (String × Field)} {fl : List (String × Value)}
    (h2 : List.Forall₂ (fun (p : String × Field) (q : String × Value) =>
      p.1 = q.1 ∧ List.lookup p.1 rdef.fields = some p.2 ∧
      avroLoad env p.2 (avroDump env p.2 q.2) = .ok q.2) flds fl) :
    fromJsonFields env rdef
      (List.zipWith (fun (p : String × Field) (q : String × Value) =>
        (p.1, avroDump env p.2 q.2)) flds fl) = .ok fl := by
  induction h2 with
  | nil => simp [fromJsonFields]
  | @cons p q ps qs hpq hrest ih =>
    obtain ⟨n1, ft⟩ := p
    obtain ⟨n2, v⟩ := q
    obtain ⟨hn, hlk, hrt⟩ := hpq
    simp only at hn hlk hrt
    subst hn
    rw [List.zipWith, fromJsonFields]
    simp only [hlk, hrt, ih]
    rfl

/-- Constructing a record from kwargs that list exactly the class's
field names (distinct, in order) reproduces those kwargs as the
instance's attributes. -/
theorem mkRecord_recover {key : String} {rdef : RecordDef} {fl : List (String × Value)}
    (hnames : rdef.fields.map Prod.fst = fl.map Prod.fst)
    (hnd : (rdef.fields.map Prod.fst).Nodup) :
    mkRecord key rdef fl = .vrec key fl := by
  rw [mkRecord]
  congr 1
  have main : ∀ (flds : List (String × Field)) (fl : List (String × Value)),
      flds.map Prod.fst = fl.map Prod.fst → (flds.map Prod.fst).Nodup →
      flds.map (fun p => (p.1, (List.lookup p.1 fl).getD (defaultValue p.2))) = fl := by
    intro flds
    induction flds with
    | nil =>
      intro fl hn _
      simp at hn
      simp [hn.symm]
    | cons p ps ih =>
      intro fl hn hd
      obtain ⟨n1, ft⟩ := p
      cases fl with
      | nil => simp at hn
      | cons q qs =>
        obtain ⟨n2, v⟩ := q
        simp only [List.map_cons, List.cons_inj_right, List.cons.injEq] at hn
        obtain ⟨hn12, hntl⟩ := hn
        subst hn12
        simp only [List.map_cons, List.nodup_cons] at hd
        simp only [List.map_cons]
        have hmap : ps.map (fun p => (p.1, (List.lookup p.1 ((n1, v) :: qs)).getD (defaultValue p.2)))
            = ps.map (fun p => (p.1, (List.lookup p.1 qs).getD (defaultValue p.2))) := by
          apply List.map_congr_left
          intro r hr
          have hne : (r.1 == n1) = false := by
            apply beq_false_of_ne
            intro hcon
            exact hd.1 (hcon ▸ List.mem_map_of_mem Prod.fst hr)
          rw [List.lookup, hne]
        rw [hmap, ih qs hntl hd.2]
        simp [List.lookup]
  exact main rdef.fields fl hnames hnd

theorem one_le_sizeOf_value (v : Value) : 1 ≤ sizeOf v := by
  cases v <;> simp_arith

/-- A pointwise relation over paired lists can be strengthened using
membership of both components. -/
theorem forall2_mem_imp {α β : Type} {R S : α → β → Prop} {l1 : List α} {l2 : List β}
    (h : List.Forall₂ R l1 l2)
    (h2 : ∀ a b, a ∈ l1 → b ∈ l2 → R a b → S a b) :
    List.Forall₂ S l1 l2 := by
  induction h with
  | nil => exact List.Forall₂.nil
  | @cons a b as bs hab hrest ih =>
    exact List.Forall₂.cons
      (h2 a b (List.mem_cons_self _ _) (List.mem_cons_self _ _) hab)
      (ih (fun x y hx hy => h2 x y (List.mem_cons_of_mem _ hx) (List.mem_cons_of_mem _ hy)))

/-- Pointwise equal first components give equal key lists. -/
theorem forall2_fst_eq {α β γ : Type} {l1 : List (γ × α)} {l2 : List (γ × β)}
    (h : List.Forall₂ (fun p q => p.1 = q.1) l1 l2) :
    l1.map Prod.fst = l2.map Prod.fst := by
  induction h with
  | nil => rfl
  | cons hab hrest ih => simp [hab, ih]

/-- The size-indexed round-trip induction: every valid value of every
field kind survives `avro_load ∘ avro_dump` unchanged. -/
theorem roundtrip_aux : ∀ (n : Nat) (env : Env) (f : Field) (v : Value),
    sizeOf v ≤ n → validB env f v = true →
    avroLoad env f (avroDump env f v) = .ok v := by
  intro n
  induction n with
  | zero =>
    intro env f v hsz _
    exact absurd hsz (by have := one_le_sizeOf_value v; omega)
  | succ n ih =>
    intro env f v hsz hval
    obtain ⟨k, nb, d⟩ := f
    cases k with
    | boolean =>
      cases v
      case vnull => rw [avroDump_vnull, avroLoad_vnull]
      case vbool b =>
        cases nb <;>
          simp [avroDump, avroLoad, Field.kind, Field.nullable, scalarDump, scalarLoad,
            List.lookup]
      all_goals simp [validB, Field.kind] at hval
    | integer size =>
      cases v
      case vnull => rw [avroDump_vnull, avroLoad_vnull]
      case vint i =>
        cases nb <;>
          simp [avroDump, avroLoad, Field.kind, Field.nullable, scalarDump, scalarLoad,
            List.lookup]
      all_goals simp [validB, Field.kind] at hval
    | float size =>
      cases v
      case vnull => rw [avroDump_vnull, avroLoad_vnull]
      case vfloat a b =>
        cases nb <;>
          simp [avroDump, avroLoad, Field.kind, Field.nullable, scalarDump, scalarLoad,
            List.lookup]
      all_goals simp [validB, Field.kind] at hval
    | bytes =>
      cases v
      case vnull => rw [avroDump_vnull, avroLoad_vnull]
      case vstr s =>
        cases nb <;>
          simp [avroDump, avroLoad, Field.kind, Field.nullable, scalarDump, scalarLoad,
            List.lookup]
      all_goals simp [validB, Field.kind] at hval
    | text =>
      cases v
      case vnull => rw [avroDump_vnull, avroLoad_vnull]
      case vstr s =>
        cases nb <;>
          simp [avroDump, avroLoad, Field.kind, Field.nullable, scalarDump, scalarLoad,
            List.lookup]
      all_goals simp [validB, Field.kind] at hval
    | enum values =>
      cases v
      case vnull => rw [avroDump_vnull, avroLoad_vnull]
      case vstr s =>
        cases nb <;>
          simp [avroDump, avroLoad, Field.kind, Field.nullable, scalarDump, scalarLoad,
            List.lookup]
      all_goals simp [validB, Field.kind] at hval
    | list elem =>
      cases v
      case vnull => rw [avroDump_vnull, avroLoad_vnull]
      case vlist xs =>
        simp only [validB, Field.kind] at hval
        have H : ∀ x ∈ xs, avroLoad env elem (avroDump env elem x) = .ok x := by
          intro x hx
          apply ih env elem x ?_ (validElems_mem hval x hx)
          have h1 := List.sizeOf_lt_of_mem hx
          simp at hsz
          omega
        have hLD := loadElems_dumpElems H
        cases nb with
        | false =>
          simp [avroDump, avroLoad, Field.kind, Field.nullable, hLD, Except.map]
        | true =>
          simp only [avroDump, Field.kind, Field.nullable, reduceIte]
          simp only [avroLoad, Field.kind, Field.nullable, reduceIte]
          split
          case h_1 => simp_all [List.lookup, Except.map]
          case h_2 val hvn heq =>
            simp only [List.lookup, beq_self_eq_true, Option.some.injEq] at heq
            exact absurd heq.symm (hvn _)
          case h_3 heq => simp [List.lookup] at heq
      all_goals simp [validB, Field.kind] at hval
    | map kt vt =>
      cases v
      case vnull => rw [avroDump_vnull, avroLoad_vnull]
      case vdict kvs =>
        simp only [validB, Field.kind] at hval
        have H : ∀ p ∈ kvs, avroLoad env vt (avroDump env vt p.2) = .ok p.2 := by
          intro p hp
          apply ih env vt p.2 ?_ (validEntries_mem hval p hp)
          have h1 := List.sizeOf_lt_of_mem hp
          obtain ⟨a, b⟩ := p
          simp at hsz h1 ⊢
          omega
        have hLD' : loadEntries env vt (dumpEntries env vt kvs) = .ok kvs := by
          apply loadEntries_dumpEntries
          intro p hp
          exact H p hp
        have hdump : dumpEntries env vt kvs =
            kvs.map (fun p => (p.1, avroDump env vt p.2)) := by
          clear hLD' H hval hsz
          induction kvs with
          | nil => rw [dumpEntries]; rfl
          | cons p rest ihk =>
            obtain ⟨a, b⟩ := p
            rw [dumpEntries, ihk]
            simp [textKeyDump]
        rw [← hdump] at *
        cases nb with
        | false =>
          simp [avroDump, avroLoad, Field.kind, Field.nullable, hLD', Except.map]
        | true =>
          simp only [avroDump, Field.kind, Field.nullable, reduceIte]
          simp only [avroLoad, Field.kind, Field.nullable, reduceIte]
          split
          case h_1 => simp_all [List.lookup, Except.map]
          case h_2 val hvn heq =>
            simp only [List.lookup, beq_self_eq_true, Option.some.injEq] at heq
            exact absurd heq.symm (hvn _)
          case h_3 heq => simp [List.lookup] at heq
      all_goals simp [validB, Field.kind] at hval
    | subRecord key =>
      cases v
      case vnull => rw [avroDump_vnull, avroLoad_vnull]
      case vrec k fl =>
        simp only [validB, Field.kind] at hval
        cases hlk : List.lookup key env with
        | none => rw [hlk] at hval; simp at hval
        | some rdef =>
          rw [hlk] at hval
          simp only [Bool.and_eq_true, beq_iff_eq, decide_eq_true_eq] at hval
          obtain ⟨hk, hnd, hvf⟩ := hval
          subst hk
          have hrec : lookupRecord env k = rdef := by
            rw [lookupRecord, hlk]
            rfl
          have F2 := validFields_forall2 hvf
          have hnames : rdef.fields.map Prod.fst = fl.map Prod.fst :=
            forall2_fst_eq (F2.imp (fun a b h => h.1))
          have hszfl : sizeOf fl ≤ n := by
            simp at hsz
            have := one_le_sizeOf_string k
            omega
          have F3 : List.Forall₂ (fun (p : String × Field) (q : String × Value) =>
              p.1 = q.1 ∧ List.lookup p.1 rdef.fields = some p.2 ∧
              avroLoad env p.2 (avroDump env p.2 q.2) = .ok q.2) rdef.fields fl := by
            apply forall2_mem_imp F2
            intro p q hp hq hpq
            refine ⟨hpq.1, lookup_self_of_nodup hnd p hp, ?_⟩
            apply ih env p.2 q.2 ?_ hpq.2
            have h1 := List.sizeOf_lt_of_mem hq
            obtain ⟨a, b⟩ := q
            simp at h1 ⊢
            omega
          have hTJ : toJsonCompatFields env rdef.fields fl =
              List.zipWith (fun (p : String × Field) (q : String × Value) =>
                (p.1, avroDump env p.2 q.2)) rdef.fields fl :=
            toJsonCompatFields_aligned (F2.imp (fun a b h => h.1)) hnd
          have hFJ := fromJsonFields_dumped F3
          have hMR : mkRecord k rdef fl = .vrec k fl := mkRecord_recover hnames hnd
          cases nb with
          | false =>
            simp [avroDump, avroLoad, Field.kind, Field.nullable, hrec, hTJ, hFJ, hMR,
              Except.map]
          | true =>
            simp only [avroDump, Field.kind, Field.nullable, reduceIte]
            rw [hrec, hTJ]
            simp only [avroLoad, Field.kind, Field.nullable, reduceIte]
            split
            case h_1 dct heq =>
              simp only [List.lookup, beq_self_eq_true] at heq
              simp only [Option.some.injEq, Value.vdict.injEq] at heq
              rw [← heq, hrec, hFJ]
              simp [Except.map, hMR]
            case h_2 val hvn heq =>
              simp only [List.lookup, beq_self_eq_true, Option.some.injEq] at heq
              exact absurd heq.symm (hvn _)
            case h_3 heq =>
              simp [List.lookup] at heq
      all_goals simp [validB, Field.kind] at hval

/-- C1: for every Field Kind (Boolean, Integer, Float, Bytes, Text, Enum,
List, Map, SubRecord), every nullability setting, and every valid value
`v` of that kind including `None`, `avro_load (avro_dump v) = v`; both
`avro_dump` and `avro_load` map `None` to `None` (uniformly, before any
kind-specific logic), and an empty sequence dumps to an empty sequence,
never to null. -/
theorem C1_value_roundtrip (env : Env) (f : Field) (v : Value)
    (hv : validB env f v = true) :
    avroLoad env f (avroDump env f v) = .ok v ∧
    avroDump env f .vnull = .vnull ∧
    avroLoad env f .vnull = .ok .vnull ∧
    (∀ elem, f.kind = .list elem →
      avroDump env f (.vlist []) ≠ .vnull ∧
      avroLoad env f (avroDump env f (.vlist [])) = .ok (.vlist [])) := by
  refine ⟨roundtrip_aux (sizeOf v) env f v le_rfl hv,
    avroDump_vnull env f, avroLoad_vnull env f, ?_⟩
  intro elem hk
  have hv0 : validB env f (.vlist []) = true := by
    obtain ⟨kk, nb, d⟩ := f
    simp only [Field.kind] at hk
    subst hk
    simp [validB, Field.kind, validElems]
  refine ⟨?_, roundtrip_aux (sizeOf (Value.vlist [])) env f _ le_rfl hv0⟩
  obtain ⟨kk, nb, d⟩ := f
  simp only [Field.kind] at hk
  subst hk
  cases nb <;> simp [avroDump, Field.kind, Field.nullable]

/-- Witness for C1: concrete nullable 8-byte Integer round-trips 7. -/
theorem C1_value_roundtrip_witness :
    validB ([] : Env) (.mk (.integer 8) true .noDefault) (.vint 7) = true ∧
    avroLoad ([] : Env) (.mk (.integer 8) true .noDefault)
      (avroDump ([] : Env) (.mk (.integer 8) true .noDefault) (.vint 7)) = .ok (.vint 7) := by
  have hv : validB ([] : Env) (.mk (.integer 8) true .noDefault) (.vint 7) = true := by
    simp [validB, Field.kind]
  exact ⟨hv, (C1_value_roundtrip ([] : Env) _ _ hv).1⟩

/-! ### Schema generation -/

/-- Failures of schema generation: the Python `assert` of
`MapMixin.simplified_avro_type_schema` (a contract violation), and
`outOfFuel`, an artifact of the fuel-based embedding of the recursion
(Python recurses on direct class references; the fuel is given a bound
sufficient for every environment, see `getSchemaDict_no_fuel_err`). -/
inductive GenErr where
  | assertionError : GenErr
  | outOfFuel : GenErr

/-- The `isinstance(self.key_type, Text)` test asserted by
`MapMixin.simplified_avro_type_schema` (avro.py line 198). -/
def isTextField (f : Field) : Bool :=
  match f.kind with
  | .text => true
  | _ => false

/-- The literal parts of the record schema document before `fields` is
attached: `{"type": "record", "name": ...}` plus `namespace` when the
namespace attribute is present and truthy (avro.py lines 254-259). -/
def recordHeader (r : RecordDef) : List (String × Value) :=
  [("type", .vstr "record"), ("name", .vstr r.schemaName)] ++
    (match r.ns with
     | some n => if n = "" then [] else [("namespace", .vstr n)]
     | none => [])

/-- `FieldMixin.avro_default_value` (avro.py lines 114-115): returns the
field's `default` unchanged — no encoding, no dump, no wrapping. -/
def avroDefaultValue (f : Field) : Default := f.default

mutual
/-- `get_schema_dict(record, state)` (avro.py lines 240-272) for a
caller-supplied Generation State, with the state threaded explicitly
(Python mutates `state.declared_records` in place): if the qualified
name was already declared, return the bare name string; otherwise mark
it declared and build the full record definition. -/
def getSchemaDict (env : Env) (r : RecordDef) (st : List String) (fuel : Nat) :
    Except GenErr (Value × List String) :=
  match fuel with
  | 0 => .error .outOfFuel
  | fuel' + 1 =>
    let recordName := qualifiedName r
    if recordName ∈ st then .ok (.vstr recordName, st)
    else
      match genFields env r.fields (recordName :: st) fuel' with
      | .error e => .error e
      | .ok (fieldSpecs, st2) =>
        .ok (.vdict (recordHeader r ++ [("fields", .vlist fieldSpecs)]), st2)
termination_by (fuel, 0, 0)

/-- The field loop of `get_schema_dict` (avro.py lines 261-269): one
`{"name": ..., "type": ...}` spec per field, with `default` appended
exactly when the field's default is not `NO_DEFAULT`. -/
def genFields (env : Env) (flds : List (String × Field)) (st : List String) (fuel : Nat) :
    Except GenErr (List Value × List String) :=
  match flds with
  | [] => .ok ([], st)
  | (nm, ft) :: rest =>
    match avroTypeSchema env ft st fuel with
    | .error e => .error e
    | .ok (tySchema, st1) =>
      let spec :=
        match avroDefaultValue ft with
        | .noDefault => [("name", Value.vstr nm), ("type", tySchema)]
        | .val dv => [("name", Value.vstr nm), ("type", tySchema), ("default", dv)]
      match genFields env rest st1 fuel with
      | .error e => .error e
      | .ok (specs, st2) => .ok (.vdict spec :: specs, st2)
termination_by (fuel, sizeOf flds, 2)

/-- `FieldMixin.avro_type_schema` (avro.py lines 70-85): nullable fields
wrap the simplified type in a two-element union whose order follows the
default (`["null", X]` for a null or absent default, `[X, "null"]`
otherwise); non-nullable fields are the simplified type unwrapped. -/
def avroTypeSchema (env : Env) (f : Field) (st : List String) (fuel : Nat) :
    Except GenErr (Value × List String) :=
  match simplifiedAvroTypeSchema env f st fuel with
  | .error e => .error e
  | .ok (simpleType, st1) =>
    if f.nullable then
      match f.default with
      | .noDefault => .ok (.vlist [.vstr "null", simpleType], st1)
      | .val .vnull => .ok (.vlist [.vstr "null", simpleType], st1)
      | .val _ => .ok (.vlist [simpleType, .vstr "null"], st1)
    else .ok (simpleType, st1)
termination_by (fuel, sizeOf f, 1)

/-- `simplified_avro_type_schema` per kind: the base `FieldMixin`
version (the bare type name) for scalar kinds, and the `Enum`, `List`,
`Map` (with its `assert`) and `SubRecord` overrides. -/
def simplifiedAvroTypeSchema (env : Env) (f : Field) (st : List String) (fuel : Nat) :
    Except GenErr (Value × List String) :=
  match f with
  | .mk (.enum values) _ _ =>
    .ok (.vdict [("type", .vstr "enum"), ("name", .vstr (avroTypeName env f)),
      ("symbols", .vlist (values.map .vstr))], st)
  | .mk (.list elem) _ _ =>
    match avroTypeSchema env elem st fuel with
    | .error e => .error e
    | .ok (s, st1) => .ok (.vdict [("type", .vstr "array"), ("items", s)], st1)
  | .mk (.map kt vt) _ _ =>
    if isTextField kt then
      match avroTypeSchema env vt st fuel with
      | .error e => .error e
      | .ok (s, st1) => .ok (.vdict [("type", .vstr "map"), ("values", s)], st1)
    else .error .assertionError
  | .mk (.subRecord key) _ _ => getSchemaDict env (lookupRecord env key) st fuel
  | _ => .ok (.vstr (avroTypeName env f), st)
termination_by (fuel, sizeOf f, 0)
end

/-- The entry point `get_schema_dict(record, state=None)`:
`state = state or SchemaGeneratorState()` allocates a fresh, empty
Generation State exactly when the caller supplies none. -/
def getSchemaDictOpt (env : Env) (r : RecordDef) (stateOpt : Option (List String))
    (fuel : Nat) : Except GenErr (Value × List String) :=
  getSchemaDict env r (stateOpt.getD []) fuel

/-- `get_schema_string(record)` (avro.py lines 275-276): serialises
`get_schema_dict(record)` — called with no state argument — with
`json.dumps`; modelled up to JSON serialisation as the schema document
it serialises. -/
def getSchemaString (env : Env) (r : RecordDef) (fuel : Nat) : Except GenErr Value :=
  (getSchemaDictOpt env r none fuel).map Prod.fst

/-- Fuel sufficient for any generation from `env` (one unit per record
that can be declared, plus the top record and the lookup fallback). -/
def fuelBound (env : Env) : Nat := env.length + 3

/-! ### Generation State only grows -/

theorem ats_sats_mono (env : Env) (fuel : Nat)
    (hdict : ∀ r st doc st', getSchemaDict env r st fuel = .ok (doc, st') → st ⊆ st') :
    ∀ (m : Nat) (f : Field), sizeOf f ≤ m →
      (∀ st v st', simplifiedAvroTypeSchema env f st fuel = .ok (v, st') → st ⊆ st') ∧
      (∀ st v st', avroTypeSchema env f st fuel = .ok (v, st') → st ⊆ st') := by
  intro m
  induction m with
  | zero =>
    intro f hf
    obtain ⟨k, nb, d⟩ := f
    exact absurd hf (by simp_arith)
  | succ m ihm =>
    intro f hf
    have sats : ∀ st v st', simplifiedAvroTypeSchema env f st fuel = .ok (v, st') → st ⊆ st' := by
      intro st v st' h
      obtain ⟨k, nb, d⟩ := f
      cases k with
      | list elem =>
        simp only [simplifiedAvroTypeSchema] at h
        cases hA : avroTypeSchema env elem st fuel with
        | error e => rw [hA] at h; cases h
        | ok p =>
          obtain ⟨s, st1⟩ := p
          rw [hA] at h
          simp only [Except.ok.injEq, Prod.mk.injEq] at h
          have helem : sizeOf elem ≤ m := by simp at hf; omega
          have := ((ihm elem helem).2 st s st1 hA)
          rw [← h.2]
          exact this
      | map kt vt =>
        simp only [simplifiedAvroTypeSchema] at h
        by_cases htx : isTextField kt = true
        · rw [if_pos htx] at h
          cases hA : avroTypeSchema env vt st fuel with
          | error e => rw [hA] at h; cases h
          | ok p =>
            obtain ⟨s, st1⟩ := p
            rw [hA] at h
            simp only [Except.ok.injEq, Prod.mk.injEq] at h
            have hvt : sizeOf vt ≤ m := by simp at hf; omega
            have := ((ihm vt hvt).2 st s st1 hA)
            rw [← h.2]
            exact this
        · rw [if_neg htx] at h; cases h
      | subRecord key =>
        simp only [simplifiedAvroTypeSchema] at h
        exact hdict _ st v st' h
      | boolean =>
        simp only [simplifiedAvroTypeSchema] at h
        simp only [Except.ok.injEq, Prod.mk.injEq] at h
        rw [← h.2]
        exact fun a ha => ha
      | integer size =>
        simp only [simplifiedAvroTypeSchema] at h
        simp only [Except.ok.injEq, Prod.mk.injEq] at h
        rw [← h.2]
        exact fun a ha => ha
      | float size =>
        simp only [simplifiedAvroTypeSchema] at h
        simp only [Except.ok.injEq, Prod.mk.injEq] at h
        rw [← h.2]
        exact fun a ha => ha
      | bytes =>
        simp only [simplifiedAvroTypeSchema] at h
        simp only [Except.ok.injEq, Prod.mk.injEq] at h
        rw [← h.2]
        exact fun a ha => ha
      | text =>
        simp only [simplifiedAvroTypeSchema] at h
        simp only [Except.ok.injEq, Prod.mk.injEq] at h
        rw [← h.2]
        exact fun a ha => ha
      | enum values =>
        simp only [simplifiedAvroTypeSchema] at h
        simp only [Except.ok.injEq, Prod.mk.injEq] at h
        rw [← h.2]
        exact fun a ha => ha
    refine ⟨sats, ?_⟩
    intro st v st' h
    cases hS : simplifiedAvroTypeSchema env f st fuel with
    | error e =>
      simp only [avroTypeSchema, hS] at h
      exact Except.noConfusion h
    | ok p =>
      obtain ⟨s, st1⟩ := p
      simp only [avroTypeSchema, hS] at h
      have hsub := sats st s st1 hS
      by_cases hnl : f.nullable = true
      · rw [if_pos hnl] at h
        cases hd : f.default with
        | noDefault =>
          simp only [hd] at h
          simp only [Except.ok.injEq, Prod.mk.injEq] at h
          rw [← h.2]; exact hsub
        | val dv =>
          simp only [hd] at h
          cases dv <;>
            (simp only [Except.ok.injEq, Prod.mk.injEq] at h; rw [← h.2]; exact hsub)
      · rw [if_neg hnl] at h
        simp only [Except.ok.injEq, Prod.mk.injEq] at h
        rw [← h.2]; exact hsub

theorem fields_mono (env : Env) (fuel : Nat)
    (hats : ∀ f st v st', avroTypeSchema env f st fuel = .ok (v, st') → st ⊆ st') :
    ∀ flds st specs st', genFields env flds st fuel = .ok (specs, st') → st ⊆ st' := by
  intro flds
  induction flds with
  | nil =>
    intro st specs st' h
    rw [genFields] at h
    simp only [Except.ok.injEq, Prod.mk.injEq] at h
    rw [← h.2]
    exact fun a ha => ha
  | cons p rest ih =>
    obtain ⟨nm, ft⟩ := p
    intro st specs st' h
    cases hA : avroTypeSchema env ft st fuel with
    | error e =>
      simp only [genFields, hA] at h
      exact Except.noConfusion h
    | ok q =>
      obtain ⟨ty, st1⟩ := q
      simp only [genFields, hA] at h
      cases hR : genFields env rest st1 fuel with
      | error e =>
        rw [hR] at h
        simp only at h
        exact Except.noConfusion h
      | ok q2 =>
        obtain ⟨specs2, st2⟩ := q2
        rw [hR] at h
        simp only [Except.ok.injEq, Prod.mk.injEq] at h
        have h1 := hats ft st ty st1 hA
        have h2 := ih st1 specs2 st2 hR
        rw [← h.2]
        exact h1.trans h2

/-- The Generation State is only ever added to: any successful
generation returns a superset of the supplied declared set. -/
theorem gen_mono : ∀ (fuel : Nat),
    (∀ (env : Env) r st doc st', getSchemaDict env r st fuel = .ok (doc, st') → st ⊆ st') ∧
    (∀ (env : Env) flds st specs st', genFields env flds st fuel = .ok (specs, st') → st ⊆ st') ∧
    (∀ (env : Env) f st v st', avroTypeSchema env f st fuel = .ok (v, st') → st ⊆ st') ∧
    (∀ (env : Env) f st v st', simplifiedAvroTypeSchema env f st fuel = .ok (v, st') → st ⊆ st') := by
  intro fuel
  induction fuel with
  | zero =>
    have hdict : ∀ (env : Env) r st doc st', getSchemaDict env r st 0 = .ok (doc, st') → st ⊆ st' := by
      intro env r st doc st' h
      rw [getSchemaDict] at h
      cases h
    refine ⟨hdict, ?_, ?_, ?_⟩
    · intro env
      exact fields_mono env 0 (fun f => (ats_sats_mono env 0 (hdict env) (sizeOf f) f le_rfl).2)
    · intro env f
      exact (ats_sats_mono env 0 (hdict env) (sizeOf f) f le_rfl).2
    · intro env f
      exact (ats_sats_mono env 0 (hdict env) (sizeOf f) f le_rfl).1
  | succ n ihn =>
    have hdict : ∀ (env : Env) r st doc st',
        getSchemaDict env r st (n + 1) = .ok (doc, st') → st ⊆ st' := by
      intro env r st doc st' h
      rw [getSchemaDict] at h
      by_cases hm : qualifiedName r ∈ st
      · rw [if_pos hm] at h
        simp only [Except.ok.injEq, Prod.mk.injEq] at h
        rw [← h.2]
        exact fun a ha => ha
      · rw [if_neg hm] at h
        cases hG : genFields env r.fields (qualifiedName r :: st) n with
        | error e => rw [hG] at h; cases h
        | ok q =>
          obtain ⟨specs, st2⟩ := q
          rw [hG] at h
          simp only [Except.ok.injEq, Prod.mk.injEq] at h
          have hsub := (ihn.2.1) env r.fields (qualifiedName r :: st) specs st2 hG
          rw [← h.2]
          exact fun a ha => hsub (List.mem_cons_of_mem _ ha)
    refine ⟨hdict, ?_, ?_, ?_⟩
    · intro env
      exact fields_mono env (n + 1)
        (fun f => (ats_sats_mono env (n + 1) (hdict env) (sizeOf f) f le_rfl).2)
    · intro env f
      exact (ats_sats_mono env (n + 1) (hdict env) (sizeOf f) f le_rfl).2
    · intro env f
      exact (ats_sats_mono env (n + 1) (hdict env) (sizeOf f) f le_rfl).1

/-! ### Fuel sufficiency: generation terminates -/

/-- Every qualified name a generation from `env` can declare below the
top record: the environment's records' names plus the lookup fallback's
empty name. -/
def envQNames (env : Env) : Finset String :=
  insert "" (env.map (fun p => qualifiedName p.2)).toFinset

theorem lookup_mem_map_snd {α β : Type} {l : List (α × β)} {k : α} {b : β} [BEq α]
    (h : List.lookup k l = some b) : b ∈ l.map Prod.snd := by
  induction l with
  | nil => simp [List.lookup] at h
  | cons p rest ih =>
    obtain ⟨k1, b1⟩ := p
    rw [List.lookup] at h
    cases hk : (k == k1) with
    | true =>
      rw [hk] at h
      simp only [Option.some.injEq] at h
      simp [← h]
    | false =>
      rw [hk] at h
      simp [ih h]

theorem lookupRecord_qname_mem (env : Env) (key : String) :
    qualifiedName (lookupRecord env key) ∈ envQNames env := by
  rw [lookupRecord]
  cases h : List.lookup key env with
  | none => simp [envQNames, qualifiedName]
  | some rdef =>
    have hmem := lookup_mem_map_snd h
    obtain ⟨p, hp, hps⟩ := List.mem_map.mp hmem
    simp only [Option.getD]
    rw [envQNames]
    apply Finset.mem_insert_of_mem
    rw [List.mem_toFinset]
    exact List.mem_map.mpr ⟨p, hp, by rw [hps]⟩

/-- The fuel a `getSchemaDict` call needs. -/
def dictFuelNeed (env : Env) (r : RecordDef) (st : List String) : Nat :=
  if qualifiedName r ∈ st then 1
  else 2 + (envQNames env \ insert (qualifiedName r) st.toFinset).card

theorem card_diff_mono {A : Finset String} {st st' : List String} (h : st ⊆ st') :
    (A \ st'.toFinset).card ≤ (A \ st.toFinset).card := by
  apply Finset.card_le_card
  apply Finset.sdiff_subset_sdiff (le_refl A)
  intro x hx
  rw [List.mem_toFinset] at hx ⊢
  exact h hx

theorem card_diff_insert {A : Finset String} {st : List String} {q : String}
    (hqA : q ∈ A) (hqst : q ∉ st) :
    (A \ insert q st.toFinset).card + 1 = (A \ st.toFinset).card := by
  have hdq : A \ insert q st.toFinset = (A \ st.toFinset).erase q := by
    ext x
    simp only [Finset.mem_sdiff, Finset.mem_insert, Finset.mem_erase, List.mem_toFinset]
    tauto
  have hq : q ∈ A \ st.toFinset := by
    simp only [Finset.mem_sdiff, List.mem_toFinset]
    exact ⟨hqA, hqst⟩
  rw [hdq, Finset.card_erase_of_mem hq]
  have := Finset.card_pos.mpr ⟨q, hq⟩
  omega

/-- If a sub-record call has enough shared budget, its own need is met. -/
theorem dictFuelNeed_le (env : Env) (key : String) (st : List String) (fuel : Nat)
    (hle : 1 + (envQNames env \ st.toFinset).card ≤ fuel) :
    dictFuelNeed env (lookupRecord env key) st ≤ fuel := by
  rw [dictFuelNeed]
  by_cases hm : qualifiedName (lookupRecord env key) ∈ st
  · rw [if_pos hm]; omega
  · rw [if_neg hm]
    have := card_diff_insert (lookupRecord_qname_mem env key) hm
    omega

theorem ats_sats_fuel (env : Env) (fuel : Nat)
    (hdict : ∀ r st, dictFuelNeed env r st ≤ fuel →
      getSchemaDict env r st fuel ≠ .error .outOfFuel) :
    ∀ (m : Nat) (f : Field), sizeOf f ≤ m → ∀ st,
      1 + (envQNames env \ st.toFinset).card ≤ fuel →
      simplifiedAvroTypeSchema env f st fuel ≠ .error .outOfFuel ∧
      avroTypeSchema env f st fuel ≠ .error .outOfFuel := by
  intro m
  induction m with
  | zero =>
    intro f hf
    obtain ⟨k, nb, d⟩ := f
    exact absurd hf (by simp_arith)
  | succ m ihm =>
    intro f hf st hst
    have sats : simplifiedAvroTypeSchema env f st fuel ≠ .error .outOfFuel := by
      obtain ⟨k, nb, d⟩ := f
      cases k with
      | list elem =>
        have helem : sizeOf elem ≤ m := by simp at hf; omega
        have hA := (ihm elem helem st hst).2
        simp only [simplifiedAvroTypeSchema]
        cases hA2 : avroTypeSchema env elem st fuel with
        | error e =>
          cases e with
          | outOfFuel => exact absurd hA2 hA
          | assertionError => simp [hA2]
        | ok p => obtain ⟨s, st1⟩ := p; simp [hA2]
      | map kt vt =>
        have hvt : sizeOf vt ≤ m := by simp at hf; omega
        have hA := (ihm vt hvt st hst).2
        simp only [simplifiedAvroTypeSchema]
        by_cases htx : isTextField kt = true
        · rw [if_pos htx]
          cases hA2 : avroTypeSchema env vt st fuel with
          | error e =>
            cases e with
            | outOfFuel => exact absurd hA2 hA
            | assertionError => simp
          | ok p => obtain ⟨s, st1⟩ := p; simp
        · rw [if_neg htx]; simp
      | subRecord key =>
        simp only [simplifiedAvroTypeSchema]
        exact hdict (lookupRecord env key) st (dictFuelNeed_le env key st fuel hst)
      | boolean => simp [simplifiedAvroTypeSchema]
      | integer size => simp [simplifiedAvroTypeSchema]
      | float size => simp [simplifiedAvroTypeSchema]
      | bytes => simp [simplifiedAvroTypeSchema]
      | text => simp [simplifiedAvroTypeSchema]
      | enum values => simp [simplifiedAvroTypeSchema]
    refine ⟨sats, ?_⟩
    cases hS : simplifiedAvroTypeSchema env f st fuel with
    | error e =>
      cases e with
      | outOfFuel => exact absurd hS sats
      | assertionError =>
        simp only [avroTypeSchema, hS]
        simp
    | ok p =>
      obtain ⟨s, st1⟩ := p
      simp only [avroTypeSchema, hS]
      by_cases hnl : f.nullable = true
      · rw [if_pos hnl]
        cases hd : f.default with
        | noDefault => simp
        | val dv => cases dv <;> simp
      · rw [if_neg hnl]; simp

theorem fields_fuel (env : Env) (fuel : Nat)
    (hats : ∀ (f : Field) st, 1 + (envQNames env \ st.toFinset).card ≤ fuel →
      avroTypeSchema env f st fuel ≠ .error .outOfFuel)
    (hmono : ∀ (f : Field) st v st', avroTypeSchema env f st fuel = .ok (v, st') → st ⊆ st') :
    ∀ flds st, 1 + (envQNames env \ st.toFinset).card ≤ fuel →
      genFields env flds st fuel ≠ .error .outOfFuel := by
  intro flds
  induction flds with
  | nil => intro st hst; simp [genFields]
  | cons p rest ih =>
    obtain ⟨nm, ft⟩ := p
    intro st hst
    cases hA : avroTypeSchema env ft st fuel with
    | error e =>
      cases e with
      | outOfFuel => exact absurd hA (hats ft st hst)
      | assertionError => simp [genFields, hA]
    | ok q =>
      obtain ⟨ty, st1⟩ := q
      have hst1 : 1 + (envQNames env \ st1.toFinset).card ≤ fuel := by
        have := card_diff_mono (A := envQNames env) (hmono ft st ty st1 hA)
        omega
      have hR := ih st1 hst1
      simp only [genFields, hA]
      cases hR2 : genFields env rest st1 fuel with
      | error e =>
        cases e with
        | outOfFuel => exact absurd hR2 hR
        | assertionError => simp [hR2]
      | ok q2 => obtain ⟨specs, st2⟩ := q2; simp [hR2]

/-- With fuel at least its need, `get_schema_dict` never exhausts the
fuel: the Python recursion, which has no fuel, terminates. -/
theorem dict_fuel : ∀ (fuel : Nat) (env : Env) (r : RecordDef) (st : List String),
    dictFuelNeed env r st ≤ fuel →
    getSchemaDict env r st fuel ≠ .error .outOfFuel := by
  intro fuel
  induction fuel with
  | zero =>
    intro env r st hneed
    rw [dictFuelNeed] at hneed
    by_cases hm : qualifiedName r ∈ st
    · rw [if_pos hm] at hneed; omega
    · rw [if_neg hm] at hneed; omega
  | succ n ihn =>
    intro env r st hneed
    simp only [getSchemaDict]
    by_cases hm : qualifiedName r ∈ st
    · rw [if_pos hm]; simp
    · rw [if_neg hm]
      rw [dictFuelNeed, if_neg hm] at hneed
      have hst1 : 1 + (envQNames env \ (qualifiedName r :: st).toFinset).card ≤ n := by
        have : (qualifiedName r :: st).toFinset = insert (qualifiedName r) st.toFinset := by
          simp
        rw [this]
        omega
      have hdictn : ∀ r2 st2, dictFuelNeed env r2 st2 ≤ n →
          getSchemaDict env r2 st2 n ≠ .error .outOfFuel := fun r2 st2 h => ihn env r2 st2 h
      have hatsn : ∀ (f : Field) st2, 1 + (envQNames env \ st2.toFinset).card ≤ n →
          avroTypeSchema env f st2 n ≠ .error .outOfFuel :=
        fun f st2 h => (ats_sats_fuel env n hdictn (sizeOf f) f le_rfl st2 h).2
      have hmonon : ∀ (f : Field) st2 v st2', avroTypeSchema env f st2 n = .ok (v, st2') →
          st2 ⊆ st2' := fun f st2 v st2' h => (gen_mono n).2.2.1 env f st2 v st2' h
      have hG := fields_fuel env n hatsn hmonon r.fields (qualifiedName r :: st) hst1
      cases hR : genFields env r.fields (qualifiedName r :: st) n with
      | error e =>
        cases e with
        | outOfFuel => exact absurd hR hG
        | assertionError => simp [hR]
      | ok q => obtain ⟨specs, st2⟩ := q; simp [hR]

/-- `fuelBound` dominates every call's need. -/
theorem dictFuelNeed_le_fuelBound (env : Env) (r : RecordDef) (st : List String) :
    dictFuelNeed env r st ≤ fuelBound env := by
  rw [dictFuelNeed, fuelBound]
  by_cases hm : qualifiedName r ∈ st
  · rw [if_pos hm]; omega
  · rw [if_neg hm]
    have h1 : (envQNames env \ insert (qualifiedName r) st.toFinset).card ≤
        (envQNames env).card := Finset.card_le_card (Finset.sdiff_subset)
    have h2 : (envQNames env).card ≤ env.length + 1 := by
      rw [envQNames]
      calc (insert "" (env.map (fun p => qualifiedName p.2)).toFinset).card
          ≤ (env.map (fun p => qualifiedName p.2)).toFinset.card + 1 :=
            Finset.card_insert_le _ _
        _ ≤ (env.map (fun p => qualifiedName p.2)).length + 1 := by
            have := (env.map (fun p => qualifiedName p.2)).toFinset_card_le
            omega
        _ = env.length + 1 := by rw [List.length_map]
    omega

/-! ### Deduplication: one full definition per qualified name -/

/-- Does a JSON object declare `"type": "record"` (a full record
definition, as opposed to a bare name reference or a container / enum
schema)? -/
def isRecordDoc (kvs : List (String × Value)) : Bool :=
  match List.lookup "type" kvs with
  | some (.vstr t) => t == "record"
  | _ => false

/-- The fully-qualified name of a record schema document:
`namespace + "." + name` when a namespace entry is present, else
`name`. -/
def docQName (kvs : List (String × Value)) : String :=
  match List.lookup "name" kvs with
  | some (.vstr n) =>
    match List.lookup "namespace" kvs with
    | some (.vstr ns) => ns ++ "." ++ n
    | _ => n
  | _ => ""

mutual
/-- The qualified names of all full record definitions occurring in a
schema document, in emission order.  `default` entries hold verbatim
data values, not emitted type declarations, and are skipped. -/
def recordDefsIn : Value → List String
  | .vdict kvs =>
    (if isRecordDoc kvs then [docQName kvs] else []) ++ recordDefsInEntries kvs
  | .vlist xs => recordDefsInList xs
  | _ => []
termination_by v => (sizeOf v, 0)

/-- Record definitions in a list of schema documents. -/
def recordDefsInList : List Value → List String
  | [] => []
  | x :: rest => recordDefsIn x ++ recordDefsInList rest
termination_by xs => (sizeOf xs, 0)

/-- Record definitions under a JSON object's entries, skipping
`default` values. -/
def recordDefsInEntries : List (String × Value) → List String
  | [] => []
  | (k, v) :: rest =>
    (if k = "default" then [] else recordDefsIn v) ++ recordDefsInEntries rest
termination_by kvs => (sizeOf kvs, 0)
end

/-- No record uses the empty string as its namespace (with an empty
namespace Python still prepends `"."` to the declared name but omits
the `namespace` entry of the document, making the document's name
differ from the dedup key). -/
def nsOKRecord (r : RecordDef) : Bool :=
  match r.ns with
  | some "" => false
  | _ => true

/-- A record participating in dedup accounting: its namespace is not
the empty string and its qualified name is not the reserved type tag
`"record"`. -/
abbrev wfRecordName (r : RecordDef) : Prop :=
  nsOKRecord r = true ∧ qualifiedName r ≠ "record"

/-- A well-formed environment for dedup accounting. -/
abbrev envOK (env : Env) : Prop :=
  (∀ q ∈ envQNames env, q ≠ "record") ∧ (∀ p ∈ env, nsOKRecord p.2 = true)

theorem wfRecordName_lookup {env : Env} (henv : envOK env) (key : String) :
    wfRecordName (lookupRecord env key) := by
  constructor
  · rw [lookupRecord]
    cases h : List.lookup key env with
    | none => simp [nsOKRecord]
    | some rdef =>
      have hmem := lookup_mem_map_snd h
      obtain ⟨p, hp, hps⟩ := List.mem_map.mp hmem
      simpa [hps] using henv.2 p hp
  · exact henv.1 _ (lookupRecord_qname_mem env key)

/-- The document built for a newly declared record collects its own
qualified name followed by the definitions inside its field specs. -/
theorem recordDefsIn_doc (r : RecordDef) (specs : List Value)
    (hns : nsOKRecord r = true) :
    recordDefsIn (.vdict (recordHeader r ++ [("fields", .vlist specs)])) =
      qualifiedName r :: recordDefsInList specs := by
  cases hn : r.ns with
  | none =>
    simp [recordDefsIn, recordDefsInEntries, recordHeader, hn, isRecordDoc, docQName,
      List.lookup, qualifiedName]
  | some ns =>
    rw [nsOKRecord, hn] at hns
    cases hns2 : decide (ns = "") with
    | true => simp at hns2; rw [hns2] at hns; simp at hns
    | false =>
      simp at hns2
      simp [recordDefsIn, recordDefsInEntries, recordHeader, hn, hns2, isRecordDoc,
        docQName, List.lookup, qualifiedName]

/-- A field spec `{"name": ..., "type": ty}` (with or without a
`default`) is not itself a record definition (its `type` entry is never
the string `"record"`), and collects exactly the definitions inside
`ty`; a `default` value contributes nothing. -/
theorem recordDefsIn_spec (nm : String) (ty : Value)
    (hno : ∀ t, ty = .vstr t → t ≠ "record") :
    recordDefsIn (.vdict [("name", .vstr nm), ("type", ty)]) = recordDefsIn ty ∧
    ∀ dv, recordDefsIn (.vdict [("name", .vstr nm), ("type", ty), ("default", dv)]) =
      recordDefsIn ty := by
  have hird : ∀ (tail : List (String × Value)),
      isRecordDoc (("name", Value.vstr nm) :: ("type", ty) :: tail) = false := by
    intro tail
    cases ty <;> simp_all [isRecordDoc, List.lookup]
  constructor
  · rw [recordDefsIn]
    simp [hird [], recordDefsInEntries, recordDefsIn]
  · intro dv
    rw [recordDefsIn]
    simp [hird [("default", dv)], recordDefsInEntries, recordDefsIn]

/-- Scalar type-name strings collect nothing. -/
theorem recordDefsIn_vstr (s : String) : recordDefsIn (.vstr s) = [] := by
  simp [recordDefsIn]

/-- The nullable union wrappers collect exactly the inner type's
definitions. -/
theorem recordDefsIn_union (s : Value) :
    recordDefsIn (.vlist [.vstr "null", s]) = recordDefsIn s ∧
    recordDefsIn (.vlist [s, .vstr "null"]) = recordDefsIn s := by
  constructor <;>
    simp [recordDefsIn, recordDefsInList, recordDefsIn_vstr]

/-- Array and map schemas collect exactly their element / value type's
definitions; enum schemas collect nothing. -/
theorem recordDefsIn_containers (s : Value) (values : List String) :
    recordDefsIn (.vdict [("type", .vstr "array"), ("items", s)]) = recordDefsIn s ∧
    recordDefsIn (.vdict [("type", .vstr "map"), ("values", s)]) = recordDefsIn s ∧
    recordDefsIn (.vdict [("type", .vstr "enum"), ("name", .vstr "ENUM"),
      ("symbols", .vlist (values.map .vstr))]) = [] := by
  have hsym : recordDefsInList (values.map .vstr) = [] := by
    induction values with
    | nil => rw [List.map_nil, recordDefsInList]
    | cons a rest ih =>
      rw [List.map_cons, recordDefsInList, recordDefsIn_vstr, ih]
      rfl
  refine ⟨?_, ?_, ?_⟩ <;>
    simp [recordDefsIn, recordDefsInEntries, recordDefsInList, isRecordDoc, List.lookup,
      recordDefsIn_vstr, hsym]

/-- The dedup invariant: the emitted full definitions are pairwise
distinct, none was already declared on entry, and all are declared on
exit. -/
abbrev DefsInv (st st2 defs : List String) : Prop :=
  defs.Nodup ∧ ∀ q ∈ defs, q ∉ st ∧ q ∈ st2

theorem defsInv_nil (st : List String) : DefsInv st st [] :=
  ⟨List.nodup_nil, by simp⟩

theorem defsInv_append {st st1 st2 l1 l2 : List String}
    (h1 : DefsInv st st1 l1) (h2 : DefsInv st1 st2 l2)
    (hss : st ⊆ st1) (hs12 : st1 ⊆ st2) : DefsInv st st2 (l1 ++ l2) := by
  obtain ⟨hn1, hq1⟩ := h1
  obtain ⟨hn2, hq2⟩ := h2
  refine ⟨?_, ?_⟩
  · rw [List.nodup_append]
    refine ⟨hn1, hn2, ?_⟩
    intro a ha hb
    exact (hq2 a hb).1 ((hq1 a ha).2)
  · intro q hq
    rcases List.mem_append.mp hq with hq | hq
    · exact ⟨(hq1 q hq).1, hs12 ((hq1 q hq).2)⟩
    · exact ⟨fun hc => (hq2 q hq).1 (hss hc), (hq2 q hq).2⟩

theorem dedup_ats_sats (env : Env) (fuel : Nat) (henv : envOK env)
    (hdict : ∀ r st doc st', wfRecordName r →
      getSchemaDict env r st fuel = .ok (doc, st') →
      DefsInv st st' (recordDefsIn doc) ∧ ∀ t, doc = .vstr t → t ≠ "record") :
    ∀ (m : Nat) (f : Field), sizeOf f ≤ m → ∀ st v st',
      (simplifiedAvroTypeSchema env f st fuel = .ok (v, st') →
        DefsInv st st' (recordDefsIn v) ∧ ∀ t, v = .vstr t → t ≠ "record") ∧
      (avroTypeSchema env f st fuel = .ok (v, st') →
        DefsInv st st' (recordDefsIn v) ∧ ∀ t, v = .vstr t → t ≠ "record") := by
  intro m
  induction m with
  | zero =>
    intro f hf
    obtain ⟨k, nb, d⟩ := f
    exact absurd hf (by simp_arith)
  | succ m ihm =>
    intro f hf
    have sats : ∀ st v st', simplifiedAvroTypeSchema env f st fuel = .ok (v, st') →
        DefsInv st st' (recordDefsIn v) ∧ ∀ t, v = .vstr t → t ≠ "record" := by
      intro st v st' h
      obtain ⟨k, nb, d⟩ := f
      cases k with
      | list elem =>
        simp only [simplifiedAvroTypeSchema] at h
        cases hA : avroTypeSchema env elem st fuel with
        | error e => rw [hA] at h; exact Except.noConfusion h
        | ok p =>
          obtain ⟨s, st1⟩ := p
          rw [hA] at h
          simp only [Except.ok.injEq, Prod.mk.injEq] at h
          obtain ⟨hv, hst⟩ := h
          have helem : sizeOf elem ≤ m := by simp at hf; omega
          have hin := ((ihm elem helem st s st1).2 hA).1
          subst hv
          subst hst
          rw [(recordDefsIn_containers s []).1]
          exact ⟨hin, fun t ht => by cases ht⟩
      | map kt vt =>
        simp only [simplifiedAvroTypeSchema] at h
        by_cases htx : isTextField kt = true
        · rw [if_pos htx] at h
          cases hA : avroTypeSchema env vt st fuel with
          | error e => rw [hA] at h; exact Except.noConfusion h
          | ok p =>
            obtain ⟨s, st1⟩ := p
            rw [hA] at h
            simp only [Except.ok.injEq, Prod.mk.injEq] at h
            obtain ⟨hv, hst⟩ := h
            have hvt : sizeOf vt ≤ m := by simp at hf; omega
            have hin := ((ihm vt hvt st s st1).2 hA).1
            subst hv
            subst hst
            rw [(recordDefsIn_containers s []).2.1]
            exact ⟨hin, fun t ht => by cases ht⟩
        · rw [if_neg htx] at h; exact Except.noConfusion h
      | subRecord key =>
        simp only [simplifiedAvroTypeSchema] at h
        exact hdict (lookupRecord env key) st v st' (wfRecordName_lookup henv key) h
      | enum values =>
        simp only [simplifiedAvroTypeSchema] at h
        simp only [Except.ok.injEq, Prod.mk.injEq] at h
        obtain ⟨hv, hst⟩ := h
        have hname : avroTypeName env (Field.mk (FieldKind.enum values) nb d) = "ENUM" := by
          simp [avroTypeName, Field.kind]
        rw [hname] at hv
        subst hv
        subst hst
        rw [(recordDefsIn_containers .vnull values).2.2]
        exact ⟨defsInv_nil st, fun t ht => by cases ht⟩
      | boolean =>
        simp only [simplifiedAvroTypeSchema] at h
        simp only [Except.ok.injEq, Prod.mk.injEq] at h
        obtain ⟨hv, hst⟩ := h
        subst hv
        subst hst
        rw [recordDefsIn_vstr]
        refine ⟨defsInv_nil st, ?_⟩
        intro t ht
        simp only [Value.vstr.injEq] at ht
        rw [← ht]
        simp [avroTypeName, Field.kind]
      | integer size =>
        simp only [simplifiedAvroTypeSchema] at h
        simp only [Except.ok.injEq, Prod.mk.injEq] at h
        obtain ⟨hv, hst⟩ := h
        subst hv
        subst hst
        rw [recordDefsIn_vstr]
        refine ⟨defsInv_nil st, ?_⟩
        intro t ht
        simp only [Value.vstr.injEq] at ht
        rw [← ht]
        simp only [avroTypeName, Field.kind]
        split <;> simp
      | float size =>
        simp only [simplifiedAvroTypeSchema] at h
        simp only [Except.ok.injEq, Prod.mk.injEq] at h
        obtain ⟨hv, hst⟩ := h
        subst hv
        subst hst
        rw [recordDefsIn_vstr]
        refine ⟨defsInv_nil st, ?_⟩
        intro t ht
        simp only [Value.vstr.injEq] at ht
        rw [← ht]
        simp only [avroTypeName, Field.kind]
        split <;> simp
      | bytes =>
        simp only [simplifiedAvroTypeSchema] at h
        simp only [Except.ok.injEq, Prod.mk.injEq] at h
        obtain ⟨hv, hst⟩ := h
        subst hv
        subst hst
        rw [recordDefsIn_vstr]
        refine ⟨defsInv_nil st, ?_⟩
        intro t ht
        simp only [Value.vstr.injEq] at ht
        rw [← ht]
        simp [avroTypeName, Field.kind]
      | text =>
        simp only [simplifiedAvroTypeSchema] at h
        simp only [Except.ok.injEq, Prod.mk.injEq] at h
        obtain ⟨hv, hst⟩ := h
        subst hv
        subst hst
        rw [recordDefsIn_vstr]
        refine ⟨defsInv_nil st, ?_⟩
        intro t ht
        simp only [Value.vstr.injEq] at ht
        rw [← ht]
        simp [avroTypeName, Field.kind]
    intro st v st'
    refine ⟨sats st v st', ?_⟩
    intro h
    cases hS : simplifiedAvroTypeSchema env f st fuel with
    | error e =>
      simp only [avroTypeSchema, hS] at h
      exact Except.noConfusion h
    | ok p =>
      obtain ⟨s, st1⟩ := p
      simp only [avroTypeSchema, hS] at h
      have hin := sats st s st1 hS
      by_cases hnl : f.nullable = true
      · rw [if_pos hnl] at h
        cases hd : f.default with
        | noDefault =>
          simp only [hd] at h
          simp only [Except.ok.injEq, Prod.mk.injEq] at h
          obtain ⟨hv, hst⟩ := h
          subst hv
          subst hst
          rw [(recordDefsIn_union s).1]
          exact ⟨hin.1, fun t ht => by cases ht⟩
        | val dv =>
          simp only [hd] at h
          cases dv with
          | vnull =>
            simp only [Except.ok.injEq, Prod.mk.injEq] at h
            obtain ⟨hv, hst⟩ := h
            subst hv
            subst hst
            rw [(recordDefsIn_union s).1]
            exact ⟨hin.1, fun t ht => by cases ht⟩
          | vbool b =>
            simp only [Except.ok.injEq, Prod.mk.injEq] at h
            obtain ⟨hv, hst⟩ := h
            subst hv
            subst hst
            rw [(recordDefsIn_union s).2]
            exact ⟨hin.1, fun t ht => by cases ht⟩
          | vint i =>
            simp only [Except.ok.injEq, Prod.mk.injEq] at h
            obtain ⟨hv, hst⟩ := h
            subst hv
            subst hst
            rw [(recordDefsIn_union s).2]
            exact ⟨hin.1, fun t ht => by cases ht⟩
          | vfloat a b =>
            simp only [Except.ok.injEq, Prod.mk.injEq] at h
            obtain ⟨hv, hst⟩ := h
            subst hv
            subst hst
            rw [(recordDefsIn_union s).2]
            exact ⟨hin.1, fun t ht => by cases ht⟩
          | vstr a =>
            simp only [Except.ok.injEq, Prod.mk.injEq] at h
            obtain ⟨hv, hst⟩ := h
            subst hv
            subst hst
            rw [(recordDefsIn_union s).2]
            exact ⟨hin.1, fun t ht => by cases ht⟩
          | vlist xs =>
            simp only [Except.ok.injEq, Prod.mk.injEq] at h
            obtain ⟨hv, hst⟩ := h
            subst hv
            subst hst
            rw [(recordDefsIn_union s).2]
            exact ⟨hin.1, fun t ht => by cases ht⟩
          | vdict kvs =>
            simp only [Except.ok.injEq, Prod.mk.injEq] at h
            obtain ⟨hv, hst⟩ := h
            subst hv
            subst hst
            rw [(recordDefsIn_union s).2]
            exact ⟨hin.1, fun t ht => by cases ht⟩
          | vrec a b =>
            simp only [Except.ok.injEq, Prod.mk.injEq] at h
            obtain ⟨hv, hst⟩ := h
            subst hv
            subst hst
            rw [(recordDefsIn_union s).2]
            exact ⟨hin.1, fun t ht => by cases ht⟩
      · rw [if_neg hnl] at h
        simp only [Except.ok.injEq, Prod.mk.injEq] at h
        obtain ⟨hv, hst⟩ := h
        subst hv
        subst hst
        exact hin

theorem dedup_fields (env : Env) (fuel : Nat)
    (hats : ∀ (f : Field) st v st', avroTypeSchema env f st fuel = .ok (v, st') →
      DefsInv st st' (recordDefsIn v) ∧ ∀ t, v = .vstr t → t ≠ "record")
    (hmono_ats : ∀ (f : Field) st v st', avroTypeSchema env f st fuel = .ok (v, st') → st ⊆ st')
    (hmono_fields : ∀ flds st specs st',
      genFields env flds st fuel = .ok (specs, st') → st ⊆ st') :
    ∀ flds st specs st', genFields env flds st fuel = .ok (specs, st') →
      DefsInv st st' (recordDefsInList specs) := by
  intro flds
  induction flds with
  | nil =>
    intro st specs st' h
    rw [genFields] at h
    simp only [Except.ok.injEq, Prod.mk.injEq] at h
    obtain ⟨hs, hst⟩ := h
    subst hs
    subst hst
    rw [recordDefsInList]
    exact defsInv_nil st
  | cons p rest ih =>
    obtain ⟨nm, ft⟩ := p
    intro st specs st' h
    cases hA : avroTypeSchema env ft st fuel with
    | error e =>
      simp only [genFields, hA] at h
      exact Except.noConfusion h
    | ok q =>
      obtain ⟨ty, st1⟩ := q
      simp only [genFields, hA] at h
      cases hR : genFields env rest st1 fuel with
      | error e =>
        rw [hR] at h
        simp only at h
        exact Except.noConfusion h
      | ok q2 =>
        obtain ⟨specs2, st2⟩ := q2
        rw [hR] at h
        simp only [Except.ok.injEq, Prod.mk.injEq] at h
        obtain ⟨hs, hst⟩ := h
        subst hst
        have hty := hats ft st ty st1 hA
        have hspec := recordDefsIn_spec nm ty hty.2
        have happ := defsInv_append hty.1 (ih st1 specs2 st2 hR)
          (hmono_ats ft st ty st1 hA) (hmono_fields rest st1 specs2 st2 hR)
        cases hd : avroDefaultValue ft with
        | noDefault =>
          rw [hd] at hs
          subst hs
          rw [recordDefsInList, hspec.1]
          exact happ
        | val dv =>
          rw [hd] at hs
          subst hs
          rw [recordDefsInList, hspec.2 dv]
          exact happ

/-- Dedup invariant for whole-record generation: a successful
`get_schema_dict` call emits pairwise-distinct full definitions, none
already declared on entry, all declared on exit; a bare-string result
is a qualified name, never the tag `"record"`. -/
theorem dedup_dict : ∀ (fuel : Nat) (env : Env), envOK env →
    ∀ r st doc st', wfRecordName r →
    getSchemaDict env r st fuel = .ok (doc, st') →
    DefsInv st st' (recordDefsIn doc) ∧ ∀ t, doc = .vstr t → t ≠ "record" := by
  intro fuel
  induction fuel with
  | zero =>
    intro env henv r st doc st' hwf h
    rw [getSchemaDict] at h
    exact Except.noConfusion h
  | succ n ihn =>
    intro env henv r st doc st' hwf h
    simp only [getSchemaDict] at h
    by_cases hm : qualifiedName r ∈ st
    · rw [if_pos hm] at h
      simp only [Except.ok.injEq, Prod.mk.injEq] at h
      obtain ⟨hd, hst⟩ := h
      subst hd
      subst hst
      rw [recordDefsIn_vstr]
      refine ⟨defsInv_nil st, ?_⟩
      intro t ht
      simp only [Value.vstr.injEq] at ht
      rw [← ht]
      exact hwf.2
    · rw [if_neg hm] at h
      cases hG : genFields env r.fields (qualifiedName r :: st) n with
      | error e =>
        rw [hG] at h
        simp only at h
        exact Except.noConfusion h
      | ok q =>
        obtain ⟨specs, st2⟩ := q
        rw [hG] at h
        simp only [Except.ok.injEq, Prod.mk.injEq] at h
        obtain ⟨hd, hst⟩ := h
        subst hd
        subst hst
        rw [recordDefsIn_doc r specs hwf.1]
        have hdictn : ∀ r2 st2 doc2 st2', wfRecordName r2 →
            getSchemaDict env r2 st2 n = .ok (doc2, st2') →
            DefsInv st2 st2' (recordDefsIn doc2) ∧
              ∀ t, doc2 = .vstr t → t ≠ "record" :=
          fun r2 st2 doc2 st2' hw hh => ihn env henv r2 st2 doc2 st2' hw hh
        have hatsn : ∀ (f : Field) stx v stx', avroTypeSchema env f stx n = .ok (v, stx') →
            DefsInv stx stx' (recordDefsIn v) ∧ ∀ t, v = .vstr t → t ≠ "record" :=
          fun f stx v stx' hh =>
            ((dedup_ats_sats env n henv hdictn (sizeOf f) f le_rfl stx v stx').2 hh)
        have hFinv := dedup_fields env n hatsn
          (fun f stx v stx' hh => (gen_mono n).2.2.1 env f stx v stx' hh)
          (fun flds stx specsx stx' hh => (gen_mono n).2.1 env flds stx specsx stx' hh)
          r.fields (qualifiedName r :: st) specs st2 hG
        have hmono1 : (qualifiedName r :: st) ⊆ st2 :=
          (gen_mono n).2.1 env r.fields (qualifiedName r :: st) specs st2 hG
        refine ⟨⟨?_, ?_⟩, ?_⟩
        · rw [List.nodup_cons]
          refine ⟨?_, hFinv.1⟩
          intro hmem
          exact (hFinv.2 _ hmem).1 (List.mem_cons_self _ _)
        · intro q hq
          rcases List.mem_cons.mp hq with hq | hq
          · subst hq
            exact ⟨hm, hmono1 (List.mem_cons_self _ _)⟩
          · refine ⟨?_, (hFinv.2 q hq).2⟩
            intro hc
            exact (hFinv.2 q hq).1 (List.mem_cons_of_mem _ hc)
        · intro t ht
          cases ht

/-- C2: for every record schema, including one referencing itself
directly or through a cycle of SubRecords, `get_schema_dict` terminates
(the fuel bound `fuelBound env` is never exhausted — the un-fuelled
Python recursion terminates); within one Generation State it emits
exactly one full record definition per distinct fully-qualified name
(no name already declared is ever re-emitted, each emission is recorded
in the state), and it returns the bare qualified-name string whenever
the name is already declared.  The dedup accounting assumes no record
uses the empty-string namespace or the qualified name `"record"`. -/
theorem C2_schema_dedup_termination (env : Env) (r : RecordDef)
    (henv : envOK env) (hwf : wfRecordName r) :
    (∀ st, getSchemaDict env r st (fuelBound env) ≠ .error .outOfFuel) ∧
    (∀ st fuel, qualifiedName r ∈ st →
      getSchemaDict env r st (fuel + 1) = .ok (.vstr (qualifiedName r), st)) ∧
    (∀ st fuel doc st', getSchemaDict env r st fuel = .ok (doc, st') →
      (recordDefsIn doc).Nodup ∧ ∀ q ∈ recordDefsIn doc, q ∉ st ∧ q ∈ st') := by
  refine ⟨?_, ?_, ?_⟩
  · intro st
    exact dict_fuel (fuelBound env) env r st (dictFuelNeed_le_fuelBound env r st)
  · intro st fuel hmem
    simp only [getSchemaDict]
    rw [if_pos hmem]
  · intro st fuel doc st' h
    exact (dedup_dict fuel env henv r st doc st' hwf h).1

/-- Witness for C2: a directly self-recursive record. -/
theorem C2_schema_dedup_termination_witness :
    envOK [("R", ⟨"R", "R", none, [("child", .mk (.subRecord "R") true (.val .vnull))]⟩)] ∧
    wfRecordName (⟨"R", "R", none, [("child", .mk (.subRecord "R") true (.val .vnull))]⟩ : RecordDef) ∧
    getSchemaDict [("R", ⟨"R", "R", none, [("child", .mk (.subRecord "R") true (.val .vnull))]⟩)]
      ⟨"R", "R", none, [("child", .mk (.subRecord "R") true (.val .vnull))]⟩ []
      (fuelBound [("R", ⟨"R", "R", none, [("child", .mk (.subRecord "R") true (.val .vnull))]⟩)])
      ≠ .error .outOfFuel := by
  have henv : envOK [("R", ⟨"R", "R", none,
      [("child", .mk (.subRecord "R") true (.val .vnull))]⟩)] := by
    constructor
    · intro q hq
      rw [envQNames] at hq
      simp [qualifiedName] at hq
      rcases hq with hq | hq <;> (rw [hq]; decide)
    · intro p hp
      simp at hp
      rw [hp]
      decide
  have hwf : wfRecordName (⟨"R", "R", none,
      [("child", .mk (.subRecord "R") true (.val .vnull))]⟩ : RecordDef) := by
    constructor
    · decide
    · rw [qualifiedName]
      decide
  exact ⟨henv, hwf, (C2_schema_dedup_termination _ _ henv hwf).1 []⟩

/-- C3: for a nullable field, `avro_type_schema` is the union
`["null", simplified]` when the default is `None` or absent, and
`[simplified, "null"]` when the default is non-null; for a
non-nullable field it is the simplified type unwrapped. -/
theorem C3_nullable_union_order (env : Env) (f : Field) (st : List String) (fuel : Nat)
    (s : Value) (st1 : List String)
    (hs : simplifiedAvroTypeSchema env f st fuel = .ok (s, st1)) :
    (f.nullable = true → f.default = .noDefault ∨ f.default = .val .vnull →
      avroTypeSchema env f st fuel = .ok (.vlist [.vstr "null", s], st1)) ∧
    (f.nullable = true → ∀ dv, f.default = .val dv → dv ≠ .vnull →
      avroTypeSchema env f st fuel = .ok (.vlist [s, .vstr "null"], st1)) ∧
    (f.nullable = false → avroTypeSchema env f st fuel = .ok (s, st1)) := by
  refine ⟨?_, ?_, ?_⟩
  · intro hn hd
    simp only [avroTypeSchema, hs]
    rw [if_pos hn]
    rcases hd with hd | hd <;> simp only [hd]
  · intro hn dv hd hne
    simp only [avroTypeSchema, hs]
    rw [if_pos hn]
    cases dv with
    | vnull => exact absurd rfl hne
    | vbool b => simp only [hd]
    | vint i => simp only [hd]
    | vfloat a b => simp only [hd]
    | vstr a => simp only [hd]
    | vlist xs => simp only [hd]
    | vdict kvs => simp only [hd]
    | vrec a b => simp only [hd]
  · intro hn
    simp only [avroTypeSchema, hs]
    rw [if_neg (by rw [hn]; simp)]

/-- Witness for C3: nullable Text with no default yields
`["null", "string"]`. -/
theorem C3_nullable_union_order_witness :
    simplifiedAvroTypeSchema ([] : Env) (.mk .text true .noDefault) [] 1 =
      .ok (.vstr "string", []) ∧
    avroTypeSchema ([] : Env) (.mk .text true .noDefault) [] 1 =
      .ok (.vlist [.vstr "null", .vstr "string"], []) := by
  have hs : simplifiedAvroTypeSchema ([] : Env) (.mk .text true .noDefault) [] 1 =
      .ok (.vstr "string", []) := by
    simp [simplifiedAvroTypeSchema, avroTypeName, Field.kind]
  exact ⟨hs, (C3_nullable_union_order ([] : Env) _ [] 1 _ [] hs).1 rfl (Or.inl rfl)⟩

/-- C7: an Integer field's Avro type name is `"int"` for size at most 4
bytes and `"long"` otherwise; a Float field's is `"float"` for size at
most 4 bytes and `"double"` otherwise. -/
theorem C7_numeric_type_names (env : Env) (size : Nat) (nb : Bool) (d : Default) :
    avroTypeName env (.mk (.integer size) nb d) = (if size ≤ 4 then "int" else "long") ∧
    avroTypeName env (.mk (.float size) nb d) = (if size ≤ 4 then "float" else "double") :=
  ⟨rfl, rfl⟩

/-- C5: a Map field whose key kind is not Text fails schema generation
with the contract violation (`assert`), at the field's simplified
schema and hence for `get_schema_dict` on any record with such a field
(which can never succeed); the key kind is never coerced to Text. -/
theorem C5_map_key_contract (env : Env) (kt vt : Field) (nb : Bool) (d : Default)
    (hk : isTextField kt = false) :
    (∀ st fuel, simplifiedAvroTypeSchema env (.mk (.map kt vt) nb d) st fuel =
      .error .assertionError) ∧
    (∀ (r : RecordDef) nm, (nm, Field.mk (.map kt vt) nb d) ∈ r.fields →
      ∀ st fuel res, qualifiedName r ∉ st → getSchemaDict env r st fuel ≠ .ok res) := by
  have hsats : ∀ st fuel, simplifiedAvroTypeSchema env (.mk (.map kt vt) nb d) st fuel =
      .error .assertionError := by
    intro st fuel
    simp only [simplifiedAvroTypeSchema]
    rw [if_neg (by rw [hk]; simp)]
  have hats : ∀ st fuel res, avroTypeSchema env (.mk (.map kt vt) nb d) st fuel ≠ .ok res := by
    intro st fuel res h
    simp only [avroTypeSchema, hsats st fuel] at h
    exact Except.noConfusion h
  have hgen : ∀ (flds : List (String × Field)) nm,
      (nm, Field.mk (.map kt vt) nb d) ∈ flds →
      ∀ st fuel res, genFields env flds st fuel ≠ .ok res := by
    intro flds
    induction flds with
    | nil => intro nm h; simp at h
    | cons p rest ih =>
      intro nm hmem st fuel res h
      obtain ⟨nm1, ft1⟩ := p
      rcases List.mem_cons.mp hmem with heq | hmem2
      · have heqf : ft1 = Field.mk (.map kt vt) nb d := by
          simp only [Prod.mk.injEq] at heq
          exact heq.2.symm
        cases hA : avroTypeSchema env ft1 st fuel with
        | error e =>
          simp only [genFields, hA] at h
          exact Except.noConfusion h
        | ok q =>
          rw [heqf] at hA
          exact hats st fuel q hA
      · cases hA : avroTypeSchema env ft1 st fuel with
        | error e =>
          simp only [genFields, hA] at h
          exact Except.noConfusion h
        | ok q =>
          obtain ⟨ty, st1⟩ := q
          simp only [genFields, hA] at h
          cases hR : genFields env rest st1 fuel with
          | error e =>
            rw [hR] at h
            simp only at h
            exact Except.noConfusion h
          | ok q2 => exact ih nm hmem2 st1 fuel q2 hR
  refine ⟨hsats, ?_⟩
  intro r nm hmem st fuel res hst h
  cases fuel with
  | zero =>
    rw [getSchemaDict] at h
    exact Except.noConfusion h
  | succ n =>
    simp only [getSchemaDict] at h
    rw [if_neg hst] at h
    cases hG : genFields env r.fields (qualifiedName r :: st) n with
    | error e =>
      rw [hG] at h
      simp only at h
      exact Except.noConfusion h
    | ok q =>
      exact hgen r.fields nm hmem _ n q hG

/-- Witness for C5: an Integer-keyed map is rejected. -/
theorem C5_map_key_contract_witness :
    isTextField (.mk (.integer 4) false .noDefault) = false ∧
    simplifiedAvroTypeSchema ([] : Env)
      (.mk (.map (.mk (.integer 4) false .noDefault) (.mk .text false .noDefault)) false .noDefault)
      [] 1 = .error .assertionError ∧
    getSchemaDict ([] : Env)
      ⟨"M", "M", none, [("m", .mk (.map (.mk (.integer 4) false .noDefault)
        (.mk .text false .noDefault)) false .noDefault)]⟩ [] 1 ≠ .ok (.vnull, []) := by
  have hk : isTextField (.mk (.integer 4) false .noDefault) = false := rfl
  refine ⟨hk, (C5_map_key_contract ([] : Env) _ _ false .noDefault hk).1 [] 1, ?_⟩
  exact (C5_map_key_contract ([] : Env) _ _ false .noDefault hk).2
    ⟨"M", "M", none, [("m", .mk (.map (.mk (.integer 4) false .noDefault)
      (.mk .text false .noDefault)) false .noDefault)]⟩ "m"
    (List.mem_cons_self _ _) [] 1 (.vnull, []) (by rw [qualifiedName]; simp)

/-- Each field spec produced by the field loop: `{"name", "type"}` and,
exactly when the field declares a default, a `"default"` entry holding
the declared default itself. -/
theorem genFields_forall2 (env : Env) (fuel : Nat) :
    ∀ (flds : List (String × Field)) st specs st',
      genFields env flds st fuel = .ok (specs, st') →
      List.Forall₂ (fun (p : String × Field) (spec : Value) =>
        ∃ ty, (p.2.default = .noDefault ∧
                spec = .vdict [("name", .vstr p.1), ("type", ty)]) ∨
              (∃ dv, p.2.default = .val dv ∧
                spec = .vdict [("name", .vstr p.1), ("type", ty), ("default", dv)]))
        flds specs := by
  intro flds
  induction flds with
  | nil =>
    intro st specs st' h
    rw [genFields] at h
    simp only [Except.ok.injEq, Prod.mk.injEq] at h
    rw [← h.1]
    exact List.Forall₂.nil
  | cons p rest ih =>
    obtain ⟨nm, ft⟩ := p
    intro st specs st' h
    cases hA : avroTypeSchema env ft st fuel with
    | error e =>
      simp only [genFields, hA] at h
      exact Except.noConfusion h
    | ok q =>
      obtain ⟨ty, st1⟩ := q
      simp only [genFields, hA] at h
      cases hR : genFields env rest st1 fuel with
      | error e =>
        rw [hR] at h
        simp only at h
        exact Except.noConfusion h
      | ok q2 =>
        obtain ⟨specs2, st2⟩ := q2
        rw [hR] at h
        simp only [Except.ok.injEq, Prod.mk.injEq] at h
        obtain ⟨hs, hst⟩ := h
        cases hd : avroDefaultValue ft with
        | noDefault =>
          rw [hd] at hs
          rw [← hs]
          refine List.Forall₂.cons ⟨ty, Or.inl ⟨hd, rfl⟩⟩ (ih st1 specs2 st2 hR)
        | val dv =>
          rw [hd] at hs
          rw [← hs]
          exact List.Forall₂.cons ⟨ty, Or.inr ⟨dv, hd, rfl⟩⟩ (ih st1 specs2 st2 hR)

/-- A fresh `get_schema_dict` result decomposes into the record header
and one spec per field. -/
theorem getSchemaDict_shape (env : Env) (r : RecordDef) (st : List String) (fuel : Nat)
    (doc : Value) (st' : List String)
    (hok : getSchemaDict env r st fuel = .ok (doc, st'))
    (hnew : qualifiedName r ∉ st) :
    ∃ specs, doc = .vdict (recordHeader r ++ [("fields", .vlist specs)]) ∧
      genFields env r.fields (qualifiedName r :: st) (fuel - 1) = .ok (specs, st') := by
  cases fuel with
  | zero =>
    rw [getSchemaDict] at hok
    exact Except.noConfusion hok
  | succ n =>
    simp only [getSchemaDict] at hok
    rw [if_neg hnew] at hok
    cases hG : genFields env r.fields (qualifiedName r :: st) n with
    | error e =>
      rw [hG] at hok
      simp only at hok
      exact Except.noConfusion hok
    | ok q =>
      obtain ⟨specs, st2⟩ := q
      rw [hG] at hok
      simp only [Except.ok.injEq, Prod.mk.injEq] at hok
      refine ⟨specs, hok.1.symm, ?_⟩
      rw [Nat.add_sub_cancel, hG, hok.2]

/-- C6: in the emitted schema document each field entry has a
`"default"` key exactly when the field's default is not `NO_DEFAULT`;
a field with no declared default omits the key (it is not emitted as
null). -/
theorem C6_default_key_iff (env : Env) (r : RecordDef) (st : List String) (fuel : Nat)
    (doc : Value) (st' : List String)
    (hok : getSchemaDict env r st fuel = .ok (doc, st'))
    (hnew : qualifiedName r ∉ st) :
    ∃ specs, doc = .vdict (recordHeader r ++ [("fields", .vlist specs)]) ∧
      List.Forall₂ (fun (p : String × Field) (spec : Value) =>
        ∃ l, spec = .vdict l ∧
          ((∃ dv, List.lookup "default" l = some dv) ↔ p.2.default ≠ .noDefault))
        r.fields specs := by
  obtain ⟨specs, hdoc, hG⟩ := getSchemaDict_shape env r st fuel doc st' hok hnew
  refine ⟨specs, hdoc, ?_⟩
  apply (genFields_forall2 env (fuel - 1) r.fields _ specs st' hG).imp
  intro p spec hp
  obtain ⟨ty, hp⟩ := hp
  rcases hp with ⟨hnd, hspec⟩ | ⟨dv, hvd, hspec⟩
  · refine ⟨_, hspec, ?_⟩
    rw [hnd]
    constructor
    · intro ⟨dv, hdv⟩
      simp [List.lookup] at hdv
    · intro hcon
      exact absurd rfl hcon
  · refine ⟨_, hspec, ?_⟩
    rw [hvd]
    constructor
    · intro _
      simp
    · intro _
      exact ⟨dv, by simp [List.lookup]⟩

/-- Witness for C6: one defaulted and one non-defaulted field. -/
theorem C6_default_key_iff_witness :
    getSchemaDict ([] : Env)
      ⟨"R", "R", none, [("a", .mk .text false .noDefault),
        ("b", .mk (.integer 8) false (.val (.vint 5)))]⟩ [] 1 =
      .ok (.vdict [("type", .vstr "record"), ("name", .vstr "R"),
        ("fields", .vlist [
          .vdict [("name", .vstr "a"), ("type", .vstr "string")],
          .vdict [("name", .vstr "b"), ("type", .vstr "long"),
            ("default", .vint 5)]])], ["R"]) ∧
    (∃ specs,
      (Value.vdict [("type", .vstr "record"), ("name", .vstr "R"),
        ("fields", .vlist [
          .vdict [("name", .vstr "a"), ("type", .vstr "string")],
          .vdict [("name", .vstr "b"), ("type", .vstr "long"),
            ("default", .vint 5)]])]) =
        .vdict (recordHeader ⟨"R", "R", none, [("a", .mk .text false .noDefault),
          ("b", .mk (.integer 8) false (.val (.vint 5)))]⟩ ++
          [("fields", .vlist specs)]) ∧
      List.Forall₂ (fun (p : String × Field) (spec : Value) =>
        ∃ l, spec = .vdict l ∧
          ((∃ dv, List.lookup "default" l = some dv) ↔ p.2.default ≠ .noDefault))
        ([("a", .mk .text false .noDefault),
          ("b", .mk (.integer 8) false (.val (.vint 5)))]) specs) := by
  have hok : getSchemaDict ([] : Env)
      ⟨"R", "R", none, [("a", .mk .text false .noDefault),
        ("b", .mk (.integer 8) false (.val (.vint 5)))]⟩ [] 1 =
      .ok (.vdict [("type", .vstr "record"), ("name", .vstr "R"),
        ("fields", .vlist [
          .vdict [("name", .vstr "a"), ("type", .vstr "string")],
          .vdict [("name", .vstr "b"), ("type", .vstr "long"),
            ("default", .vint 5)]])], ["R"]) := by
    simp [getSchemaDict, genFields, avroTypeSchema, simplifiedAvroTypeSchema,
      avroDefaultValue, avroTypeName, Field.kind, Field.nullable, Field.default,
      recordHeader, qualifiedName]
  refine ⟨hok, ?_⟩
  exact C6_default_key_iff ([] : Env) _ [] 1 _ ["R"] hok (by rw [qualifiedName]; simp)

/-- C10: `avro_default_value` returns the declared default unchanged,
and the `"default"` emitted in a field's spec is that declared default
verbatim — no Avro encoding, no dump, no nullable-union wrapping. -/
theorem C10_default_verbatim (env : Env) (r : RecordDef) (st : List String) (fuel : Nat)
    (doc : Value) (st' : List String)
    (hok : getSchemaDict env r st fuel = .ok (doc, st'))
    (hnew : qualifiedName r ∉ st) :
    (∀ f : Field, avroDefaultValue f = f.default) ∧
    ∃ specs, doc = .vdict (recordHeader r ++ [("fields", .vlist specs)]) ∧
      List.Forall₂ (fun (p : String × Field) (spec : Value) =>
        ∀ dv, p.2.default = .val dv →
          ∃ ty, spec = .vdict [("name", .vstr p.1), ("type", ty), ("default", dv)])
        r.fields specs := by
  refine ⟨fun f => rfl, ?_⟩
  obtain ⟨specs, hdoc, hG⟩ := getSchemaDict_shape env r st fuel doc st' hok hnew
  refine ⟨specs, hdoc, ?_⟩
  apply (genFields_forall2 env (fuel - 1) r.fields _ specs st' hG).imp
  intro p spec hp
  obtain ⟨ty, hp⟩ := hp
  intro dv hdv
  rcases hp with ⟨hnd, hspec⟩ | ⟨dv2, hvd, hspec⟩
  · rw [hdv] at hnd
    cases hnd
  · rw [hdv] at hvd
    simp only [Default.val.injEq] at hvd
    exact ⟨ty, hvd ▸ hspec⟩

/-- Witness for C10: the default `5` is emitted verbatim. -/
theorem C10_default_verbatim_witness :
    avroDefaultValue (.mk (.integer 8) false (.val (.vint 5))) = .val (.vint 5) ∧
    (∃ specs,
      (Value.vdict [("type", .vstr "record"), ("name", .vstr "R"),
        ("fields", .vlist [
          .vdict [("name", .vstr "b"), ("type", .vstr "long"), ("default", .vint 5)]])]) =
        .vdict (recordHeader ⟨"R", "R", none,
          [("b", .mk (.integer 8) false (.val (.vint 5)))]⟩ ++ [("fields", .vlist specs)]) ∧
      List.Forall₂ (fun (p : String × Field) (spec : Value) =>
        ∀ dv, p.2.default = .val dv →
          ∃ ty, spec = .vdict [("name", .vstr p.1), ("type", ty), ("default", dv)])
        ([("b", .mk (.integer 8) false (.val (.vint 5)))]) specs) := by
  have hok : getSchemaDict ([] : Env)
      ⟨"R", "R", none, [("b", .mk (.integer 8) false (.val (.vint 5)))]⟩ [] 1 =
      .ok (.vdict [("type", .vstr "record"), ("name", .vstr "R"),
        ("fields", .vlist [
          .vdict [("name", .vstr "b"), ("type", .vstr "long"),
            ("default", .vint 5)]])], ["R"]) := by
    simp [getSchemaDict, genFields, avroTypeSchema, simplifiedAvroTypeSchema,
      avroDefaultValue, avroTypeName, Field.kind, Field.nullable, Field.default,
      recordHeader, qualifiedName]
  exact ⟨rfl, (C10_default_verbatim ([] : Env) _ [] 1 _ ["R"] hok
    (by rw [qualifiedName]; simp)).2⟩

/-- C9: when no Generation State is supplied, the entry point allocates
a fresh one (`state or SchemaGeneratorState()`), and `get_schema_string`
never passes one; hence a top-level call's document is always the
fresh-state document, independent of the state a previous call built. -/
theorem C9_fresh_state (env : Env) (r : RecordDef) (fuel : Nat) (doc : Value)
    (st' : List String)
    (h1 : getSchemaDict env r [] fuel = .ok (doc, st')) :
    getSchemaString env r fuel = .ok doc ∧
    getSchemaDictOpt env r none fuel = getSchemaDict env r [] fuel ∧
    getSchemaString env r fuel = (getSchemaDictOpt env r none fuel).map Prod.fst := by
  refine ⟨?_, rfl, rfl⟩
  rw [getSchemaString, getSchemaDictOpt]
  simp [h1, Except.map]

/-- Witness for C9: the empty record's document is returned by
`get_schema_string` exactly as by a fresh-state `get_schema_dict`. -/
theorem C9_fresh_state_witness :
    getSchemaDict ([] : Env) ⟨"R", "R", none, []⟩ [] 1 =
      .ok (.vdict [("type", .vstr "record"), ("name", .vstr "R"),
        ("fields", .vlist [])], ["R"]) ∧
    getSchemaString ([] : Env) ⟨"R", "R", none, []⟩ 1 =
      .ok (.vdict [("type", .vstr "record"), ("name", .vstr "R"),
        ("fields", .vlist [])]) := by
  have h1 : getSchemaDict ([] : Env) ⟨"R", "R", none, []⟩ [] 1 =
      .ok (.vdict [("type", .vstr "record"), ("name", .vstr "R"),
        ("fields", .vlist [])], ["R"]) := by
    simp [getSchemaDict, genFields, recordHeader, qualifiedName]
  exact ⟨h1, (C9_fresh_state ([] : Env) _ 1 _ ["R"] h1).1⟩

/-! ### Unknown-field errors in `from_json_compatible` -/

/-- C4 counterexample: the input mapping contains the unknown key
`"zz"`, yet `from_json_compatible` does not fail with the unknown-field
`ParseError`: iteration reaches the known key `"a"` first, whose value
`5` is malformed for a nullable field (indexing `5["long"]` raises),
so the call fails with that error instead. -/
theorem C4_unknown_field_counterexample :
    List.lookup "zz" (lookupRecord
      [("S", ⟨"S", "S", none, [("a", .mk (.integer 8) true .noDefault)]⟩)] "S").fields
      = none ∧
    fromJsonCompat [("S", ⟨"S", "S", none, [("a", .mk (.integer 8) true .noDefault)]⟩)]
      "S" [("a", .vint 5), ("zz", .vint 1)] = .error .typeError := by
  constructor
  · simp [lookupRecord, List.lookup]
  · simp [fromJsonCompat, fromJsonFields, lookupRecord, List.lookup, avroLoad,
      avroTypeName, Field.kind, Field.nullable, Except.map, Except.bind, Bind.bind]

/-- The key loop on a prefix of loadable known fields: an unknown key
right after the prefix raises the unknown-field `ParseError`, and the
prefix alone loads into its kwargs. -/
theorem fromJsonFields_pre (env : Env) (rdef : RecordDef)
    (pre loaded : List (String × Value))
    (hpre : List.Forall₂ (fun (p : String × Value) (q : String × Value) =>
      p.1 = q.1 ∧ ∃ ft, List.lookup p.1 rdef.fields = some ft ∧
        avroLoad env ft p.2 = .ok q.2) pre loaded) :
    (∀ (k : String) (v : Value) (post : List (String × Value)),
      List.lookup k rdef.fields = none →
      fromJsonFields env rdef (pre ++ (k, v) :: post) =
        .error (.parseError (unexpectedFieldMsg rdef k))) ∧
    fromJsonFields env rdef pre = .ok loaded := by
  induction hpre with
  | nil =>
    refine ⟨?_, ?_⟩
    · intro k v post hk
      rw [List.nil_append, fromJsonFields, hk]
    · rw [fromJsonFields]
  | @cons p q ps qs hpq hrest ih =>
    obtain ⟨pk, pv⟩ := p
    obtain ⟨qk, qv⟩ := q
    obtain ⟨hk1, ft, hft, hload⟩ := hpq
    simp only at hk1 hft hload
    refine ⟨?_, ?_⟩
    · intro k v post hk
      rw [List.cons_append, fromJsonFields, hft]
      rw [ih.1 k v post hk]
      simp [hload, Except.bind, Bind.bind]
    · rw [fromJsonFields, hft]
      rw [ih.2]
      simp [hload, hk1, Except.bind, Bind.bind, Except.pure, Pure.pure]

/-- C4 (amended): if iterating the input mapping reaches a key that is
not a field of the schema, with every known-field value before it
loading successfully, `from_json_compatible` fails with the
`ParseError` whose message names the schema class and that key; and a
mapping whose keys are all fields and whose values all load succeeds
(so no unknown-field error is raised). -/
theorem C4_unknown_field_error (env : Env) (key : String)
    (pre loaded : List (String × Value))
    (hpre : List.Forall₂ (fun (p : String × Value) (q : String × Value) =>
      p.1 = q.1 ∧ ∃ ft, List.lookup p.1 (lookupRecord env key).fields = some ft ∧
        avroLoad env ft p.2 = .ok q.2) pre loaded) :
    (∀ (k : String) (v : Value) (post : List (String × Value)),
      List.lookup k (lookupRecord env key).fields = none →
      fromJsonCompat env key (pre ++ (k, v) :: post) =
        .error (.parseError
          ("Unexpected field encountered in line for record " ++
            (lookupRecord env key).pyName ++ ": " ++ k))) ∧
    fromJsonCompat env key pre =
      .ok (mkRecord key (lookupRecord env key) loaded) := by
  have hf := fromJsonFields_pre env (lookupRecord env key) pre loaded hpre
  refine ⟨?_, ?_⟩
  · intro k v post hk
    rw [fromJsonCompat, hf.1 k v post hk]
    rw [unexpectedFieldMsg]
    rfl
  · rw [fromJsonCompat, hf.2]
    rfl

/-- Witness for the amended C4: unknown key `"zz"` after a well-formed
`"a"` raises the message naming `S` and `zz`; the mapping without the
unknown key loads. -/
theorem C4_unknown_field_error_witness :
    fromJsonCompat [("S", ⟨"S", "S", none, [("a", .mk (.integer 8) true .noDefault)]⟩)]
      "S" [("a", .vdict [("long", .vint 5)]), ("zz", .vint 1)] =
      .error (.parseError "Unexpected field encountered in line for record S: zz") ∧
    fromJsonCompat [("S", ⟨"S", "S", none, [("a", .mk (.integer 8) true .noDefault)]⟩)]
      "S" [("a", .vdict [("long", .vint 5)])] =
      .ok (.vrec "S" [("a", .vint 5)]) := by
  have hrec : lookupRecord
      [("S", ⟨"S", "S", none, [("a", .mk (.integer 8) true .noDefault)]⟩)] "S" =
      ⟨"S", "S", none, [("a", .mk (.integer 8) true .noDefault)]⟩ := by
    simp [lookupRecord, List.lookup]
  have hload : avroLoad [("S", ⟨"S", "S", none, [("a", .mk (.integer 8) true .noDefault)]⟩)]
      (.mk (.integer 8) true .noDefault) (.vdict [("long", .vint 5)]) = .ok (.vint 5) := by
    simp [avroLoad, avroTypeName, Field.kind, Field.nullable, scalarLoad, List.lookup]
  have hpre : List.Forall₂ (fun (p : String × Value) (q : String × Value) =>
      p.1 = q.1 ∧ ∃ ft, List.lookup p.1 (lookupRecord
        [("S", ⟨"S", "S", none, [("a", .mk (.integer 8) true .noDefault)]⟩)] "S").fields
          = some ft ∧
        avroLoad [("S", ⟨"S", "S", none, [("a", .mk (.integer 8) true .noDefault)]⟩)]
          ft p.2 = .ok q.2)
      [("a", .vdict [("long", .vint 5)])] [("a", .vint 5)] := by
    refine List.Forall₂.cons ⟨rfl, .mk (.integer 8) true .noDefault, ?_, hload⟩
      List.Forall₂.nil
    rw [hrec]
    simp [List.lookup]
  have h := C4_unknown_field_error
    [("S", ⟨"S", "S", none, [("a", .mk (.integer 8) true .noDefault)]⟩)] "S"
    [("a", .vdict [("long", .vint 5)])] [("a", .vint 5)] hpre
  constructor
  · have h1 := h.1 "zz" (.vint 1) [] (by rw [hrec]; simp [List.lookup])
    rw [hrec] at h1
    exact h1
  · have h2 := h.2
    rw [hrec] at h2
    rw [h2]
    simp [mkRecord, defaultValue, List.lookup, Field.default]

/-! ### The luigi batch adapter (`src/pyschema/contrib/luigi.py`) -/

/-- `core.ParseError` (`pyschema/core.py`, not under `src/`): per the
spec a structured parse-error type carrying a human-readable message. -/
structure ParseError where
  msg : String

/-- The observable effect of one `mr_writer` run: the lines printed to
the output stream, the lines printed to the error sink, and the
propagated exception, if any. -/
structure WriterRun where
  outLines : List String
  errLines : List String
  raised : Option ParseError

/-- `mr_writer(job, outputs, output_stream, stderr, dumps)` (luigi.py
lines 29-39): each record is encoded by `dumps` — a parameter, as in
the source — and printed as one line to the output stream; when `dumps`
raises a `core.ParseError` the error is printed to the error sink and
re-raised, aborting the stream. -/
def mr_writer {α : Type} (dumps : α → Except ParseError String) :
    List α → WriterRun
  | [] => ⟨[], [], none⟩
  | o :: rest =>
    match dumps o with
    | .ok line =>
      let r := mr_writer dumps rest
      ⟨line :: r.outLines, r.errLines, r.raised⟩
    | .error e => ⟨[], [e.msg], some e⟩

/-- C8: `mr_writer` encodes each record to one output line in order;
when a record's encoding raises a ParseError, the error description
goes to the error sink, the exception propagates, and nothing after the
failing record is encoded — no skip-and-continue, no partial-record
recovery. -/
theorem C8_mr_writer_behavior {α : Type} (dumps : α → Except ParseError String)
    (pre : List α) (lines : List String)
    (hpre : List.Forall₂ (fun o l => dumps o = .ok l) pre lines) :
    mr_writer dumps pre = ⟨lines, [], none⟩ ∧
    ∀ (post : List α) (bad : α) (e : ParseError), dumps bad = .error e →
      mr_writer dumps (pre ++ bad :: post) = ⟨lines, [e.msg], some e⟩ := by
  induction hpre with
  | nil =>
    refine ⟨rfl, ?_⟩
    intro post bad e he
    rw [List.nil_append, mr_writer, he]
  | @cons o l os ls hol hrest ih =>
    refine ⟨?_, ?_⟩
    · rw [mr_writer, hol, ih.1]
    · intro post bad e he
      rw [List.cons_append, mr_writer, hol, ih.2 post bad e he]

/-- Witness for C8: two good records then a bad one. -/
theorem C8_mr_writer_behavior_witness :
    mr_writer (fun n : Nat => if n = 0 then .error ⟨"boom"⟩ else .ok "line") [1, 2] =
      ⟨["line", "line"], [], none⟩ ∧
    mr_writer (fun n : Nat => if n = 0 then .error ⟨"boom"⟩ else .ok "line") [1, 2, 0, 3] =
      ⟨["line", "line"], ["boom"], some ⟨"boom"⟩⟩ := by
  have hpre : List.Forall₂
      (fun (o : Nat) (l : String) =>
        (fun n : Nat => if n = 0 then Except.error (⟨"boom"⟩ : ParseError)
          else .ok "line") o = .ok l)
      [1, 2] ["line", "line"] := by
    refine List.Forall₂.cons (by simp) (List.Forall₂.cons (by simp) List.Forall₂.nil)
  have h := C8_mr_writer_behavior
    (fun n : Nat => if n = 0 then .error ⟨"boom"⟩ else .ok "line") [1, 2] ["line", "line"] hpre
  exact ⟨h.1, h.2 [3] 0 ⟨"boom"⟩ (by simp)⟩

end PySchemaAvro
